import Mathlib

/-!
The front end of the stack language in `main.cpp`.

A shallow embedding of `parseProgram`, of `struct Stack` and of the replay loop of
`compileToLLVMIR`, followed by theorems about them.

Conventions of the embedding.

* A `std::string` is a `List Char`; every `Char` stands for one byte.  The character
  classes `isalpha`, `isalnum`, `isspace` are those of the "C" locale.
* `source[i]` is defined for `i ≤ source.length()` (the position `length()` holds the
  terminating NUL) and is undefined behaviour beyond it.
* A call either returns, throws (`std::stoi`), or has undefined behaviour (an access
  outside an array or a string): see `Outcome`.
* The counters `cursor`, `end`, `strcnt` are C `int`s.  They are embedded as unbounded
  numbers: they only count upwards from zero by one or two per byte read or per call,
  so they stay below `2^31` for every source text shorter than `2^31` bytes.
* The unbounded `while` loop of `parseProgram` takes a fuel argument, and running out of
  fuel is the answer `none`; it is never confused with a result of the program.
* The calls into LLVM in `compileToLLVMIR` are recorded as a list of `Call`s: the callee
  and the argument handed to it, the popped integer for `exit` and, for `printf`, the
  popped text as the C string `pop.c_str()`, which ends at the first NUL byte.
-/

namespace Stacked

/-! ## Outcomes -/

/-- The two exceptions `std::stoi` can throw. -/
inductive Exn where
  | invalid_argument
  | out_of_range
  deriving DecidableEq, Repr

/-- What running a piece of the C++ code does: it returns a value, it throws, or its
behaviour is undefined (an access outside the bounds of an array or a string). -/
inductive Outcome (α : Type) where
  | ret (a : α)
  | throws (e : Exn)
  | undefined
  deriving DecidableEq, Repr

/-- Sequencing of outcomes: the continuation runs only after a return. -/
def Outcome.bind {α β : Type} (o : Outcome α) (f : α → Outcome β) : Outcome β :=
  match o with
  | .ret a => f a
  | .throws e => .throws e
  | .undefined => .undefined

/-! ## The instruction model (`OPType`, `IntrinsicType`, `OP`) -/

/-- The enum `OPType`. -/
inductive OPType where
  | NOP
  | PUSHI
  | PUSHS
  | INTRINSIC
  deriving DecidableEq, Repr

/-- The enum `IntrinsicType`. -/
inductive IntrinsicType where
  | EXIT
  | PUTS
  deriving DecidableEq, Repr

/-- The macro `ENUMI`, a `static_cast<int>`: `EXIT` is 0 and `PUTS` is 1. -/
def ENUMI : IntrinsicType → Int
  | .EXIT => 0
  | .PUTS => 1

/-- The struct `OP`.  The defaults are those of the value initialisation `OP current = {}`. -/
structure OP where
  type : OPType := .NOP
  operand : Int := 0
  soperand : List Char := []
  deriving DecidableEq, Repr

/-- The macro `OP_INTRINSIC(intrinsic)`, that is `OP { OPType::INTRINSIC, ENUMI(intrinsic) }`. -/
def OP_INTRINSIC (intrinsic : IntrinsicType) : OP :=
  { type := .INTRINSIC, operand := ENUMI intrinsic }

/-- The macro `INTRINSIC_EXIT`. -/
def INTRINSIC_EXIT : OP := OP_INTRINSIC .EXIT

/-- The macro `INTRINSIC_PUTS`. -/
def INTRINSIC_PUTS : OP := OP_INTRINSIC .PUTS

/-! ## Characters and `std::stoi` -/

/-- The function `isalpha` of the "C" locale. -/
def isalpha (c : Char) : Bool :=
  (65 ≤ c.toNat && c.toNat ≤ 90) || (97 ≤ c.toNat && c.toNat ≤ 122)

/-- The function `isdigit`. -/
def isdigit (c : Char) : Bool :=
  48 ≤ c.toNat && c.toNat ≤ 57

/-- The function `isalnum` of the "C" locale. -/
def isalnum (c : Char) : Bool :=
  isalpha c || isdigit c

/-- The function `isspace` of the "C" locale: space, `\t`, `\n`, `\v`, `\f`, `\r`. -/
def isspace (c : Char) : Bool :=
  c.toNat = 32 || (9 ≤ c.toNat && c.toNat ≤ 13)

/-- Value of a run of decimal digits, most significant first. -/
def decimalValue (ds : List Char) : Nat :=
  ds.foldl (fun acc c => 10 * acc + (c.toNat - 48)) 0

/-- The library function `std::stoi(str)` in base 10: skip leading white space, read an
optional sign and then the longest run of decimal digits; whatever follows is ignored.
Without a digit it throws `invalid_argument`, and a value that is not an `int` throws
`out_of_range`. -/
def stoi (str : List Char) : Outcome Int :=
  let body := str.dropWhile isspace
  let negative := body.head? = some '-'
  let unsigned := if body.head? = some '-' ∨ body.head? = some '+' then body.tail else body
  let digits := unsigned.takeWhile isdigit
  if digits = [] then .throws .invalid_argument
  else
    let value : Int := if negative then -(decimalValue digits : Int) else (decimalValue digits : Int)
    if -2147483648 ≤ value ∧ value ≤ 2147483647 then .ret value else .throws .out_of_range

/-! ## Reading the source text -/

/-- The expression `source[i]`: the byte at `i`, the terminating NUL at `i = length()`, and
undefined behaviour beyond. -/
def charAt (source : List Char) (i : Nat) : Outcome Char :=
  match source[i]? with
  | some c => .ret c
  | none => if i = source.length then .ret (Char.ofNat 0) else .undefined

/-- The call `source.substr(start, n)` for `start ≤ source.length()`. -/
def substr (source : List Char) (start n : Nat) : List Char :=
  (source.drop start).take n

/-! ## The lambdas of `parseProgram` -/

/-- The `while` loop of the lambda `parseStr`, from the position `end_` with the text `str`
decoded so far.  Every iteration moves `end_` forward, so `source.length + 1` iterations
bring it past the last defined position: the fuel only runs out where the next read is
undefined anyway. -/
def parseStrLoop (source : List Char) : Nat → Nat → List Char → Outcome (List Char × Nat)
  | 0, _, _ => .undefined
  | fuel + 1, end_, str =>
    (charAt source end_).bind fun c =>
      if c = '"' then .ret (str, end_ + 1)
      else if c ≠ '\\' then parseStrLoop source fuel (end_ + 1) (str ++ [c])
      else
        (charAt source (end_ + 1)).bind fun e =>
          parseStrLoop source fuel (end_ + 2)
            (if e = 'n' then str ++ [Char.ofNat 0xA]
             else if e = 't' then str ++ [Char.ofNat 0x09]
             else str)

/-- The lambda `parseStr`, called with the cursor on the opening quote: the decoded text and
the position after the closing quote. -/
def parseStr (source : List Char) (cursor : Nat) : Outcome (List Char × Nat) :=
  parseStrLoop source (source.length + 2) (cursor + 1) []

/-- The loop `while (pred(source[end])) end++;` shared by `tryParseIdent` and
`tryParseNumber`.  The NUL at `source.length()` stops it, so the fuel
`source.length + 1` is never used up from a position inside the text. -/
def scanRun (pred : Char → Bool) (source : List Char) : Nat → Nat → Outcome Nat
  | 0, _ => .undefined
  | fuel + 1, end_ =>
    (charAt source end_).bind fun c =>
      if pred c then scanRun pred source fuel (end_ + 1) else .ret end_

/-- The lambda `tryParseIdent`: the run of letters at the cursor and the position after it. -/
def tryParseIdent (source : List Char) (cursor : Nat) : Outcome (List Char × Nat) :=
  (scanRun isalpha source (source.length + 1) cursor).bind fun end_ =>
    .ret (substr source cursor (end_ - cursor), end_)

/-- The lambda `tryParseNumber`: the run of letters and digits at the cursor and the position
after it. -/
def tryParseNumber (source : List Char) (cursor : Nat) : Outcome (List Char × Nat) :=
  (scanRun isalnum source (source.length + 1) cursor).bind fun end_ =>
    .ret (substr source cursor (end_ - cursor), end_)

/-! ## `parseProgram` -/

/-- The variables the scan loop of `parseProgram` works on: the accumulator `current`, the
`cursor`, and the global vector `program`. -/
structure PState where
  current : OP := {}
  cursor : Nat := 0
  program : List OP := []
  deriving DecidableEq, Repr

/-- The lambda `push_op` (the `printf` trace left out): append the accumulator, reset it,
move on. -/
def push_op (st : PState) : PState :=
  { current := {}, cursor := st.cursor + 1, program := st.program ++ [st.current] }

/-- The effect of an identifier on the accumulator (the `if`/`else if` chain on `res.first`). -/
def applyIdent (current : OP) (ident : List Char) : OP :=
  if ident = "pushs".toList then { current with type := .PUSHS }
  else if ident = "puts".toList then INTRINSIC_PUTS
  else if ident = "pushi".toList then { current with type := .PUSHI }
  else if ident = "exit".toList then INTRINSIC_EXIT
  else current

/-- One iteration of `while (cursor < source.length())`: the `switch` on `source[cursor]`. -/
def step (source : List Char) (st : PState) : Outcome PState :=
  (charAt source st.cursor).bind fun c =>
    if c = ';' then .ret (push_op st)
    else if c = '\n' ∨ c = ' ' then .ret { st with cursor := st.cursor + 1 }
    else if c = '"' then
      (parseStr source st.cursor).bind fun a =>
        .ret { st with current := { st.current with soperand := a.1 }, cursor := a.2 }
    else if isalpha c then
      (tryParseIdent source st.cursor).bind fun res =>
        .ret { st with current := applyIdent st.current res.1, cursor := res.2 }
    else if isalnum c then
      (tryParseNumber source st.cursor).bind fun res =>
        (stoi res.1).bind fun n =>
          .ret { st with current := { st.current with operand := n }, cursor := res.2 }
    else .ret st

/-- The scan loop of `parseProgram`, for at most `fuel` iterations; `none` when they do not
suffice. -/
def parseLoop (source : List Char) : Nat → PState → Option (Outcome PState)
  | 0, _ => none
  | fuel + 1, st =>
    if st.cursor < source.length then
      match step source st with
      | .ret st1 => parseLoop source fuel st1
      | .throws e => some (.throws e)
      | .undefined => some .undefined
    else some (.ret st)

/-- The function `parseProgram(source)`, run for at most `fuel` iterations on the global
vector `program`: the vector it leaves behind. -/
def parseProgram (source : List Char) (program : List OP) (fuel : Nat) :
    Option (Outcome (List OP)) :=
  match parseLoop source fuel { current := {}, cursor := 0, program := program } with
  | none => none
  | some (.ret st) => some (.ret st.program)
  | some (.throws e) => some (.throws e)
  | some .undefined => some .undefined

/-! ## `struct Stack` -/

/-- The struct `Stack`: the array `int stack[100]`, the counter `strcnt`, the map
`stringtable` (as an association list, one pair per key) and the stack pointer `sp`. -/
structure Stack where
  stack : List Int
  strcnt : Int
  stringtable : List (Int × List Char)
  sp : Int
  deriving DecidableEq, Repr

/-- The value initialisation `Stack{}`: a hundred zero cells, no strings, `sp = 0`. -/
def Stack.fresh : Stack :=
  { stack := List.replicate 100 0, strcnt := 0, stringtable := [], sp := 0 }

/-- The assignment `stringtable[key] = s`: replace the text of `key`, or add the pair. -/
def tableAssign : List (Int × List Char) → Int → List Char → List (Int × List Char)
  | [], key, s => [(key, s)]
  | (k, v) :: rest, key, s =>
    if k = key then (k, s) :: rest else (k, v) :: tableAssign rest key s

/-- The text stored under `key`, if any (`stringtable.find(key)`). -/
def tableFind : List (Int × List Char) → Int → Option (List Char)
  | [], _ => none
  | (k, v) :: rest, key => if k = key then some v else tableFind rest key

/-- Reading `stringtable[key]`: the stored text; a missing key is first added with the empty
text, as `std::map::operator[]` does. -/
def tableIndex (table : List (Int × List Char)) (key : Int) :
    List Char × List (Int × List Char) :=
  match tableFind table key with
  | some s => (s, table)
  | none => ([], tableAssign table key [])

/-- The method `push`: `stack[sp++] = operand`, undefined outside the array. -/
def Stack.push (s : Stack) (operand : Int) : Outcome Stack :=
  if 0 ≤ s.sp ∧ s.sp < 100 then
    .ret { s with stack := s.stack.set s.sp.toNat operand, sp := s.sp + 1 }
  else .undefined

/-- The method `pushs`: take the next handle, store the text under it, push the handle. -/
def Stack.pushs (s : Stack) (text : List Char) : Outcome Stack :=
  let cnt := s.strcnt
  Stack.push
    { s with strcnt := s.strcnt + 1, stringtable := tableAssign s.stringtable cnt text } cnt

/-- The method `pop`: `return stack[--sp]`, undefined outside the array. -/
def Stack.pop (s : Stack) : Outcome (Int × Stack) :=
  if 0 ≤ s.sp - 1 ∧ s.sp - 1 < 100 then
    .ret (s.stack.getD (s.sp - 1).toNat 0, { s with sp := s.sp - 1 })
  else .undefined

/-- The method `pops`: `return stringtable[stack[--sp]]`. -/
def Stack.pops (s : Stack) : Outcome (List Char × Stack) :=
  s.pop.bind fun r =>
    .ret ((tableIndex r.2.stringtable r.1).1,
          { r.2 with stringtable := (tableIndex r.2.stringtable r.1).2 })

/-! ## The replay loop of `compileToLLVMIR` -/

/-- A call emitted by `compileToLLVMIR`, with the argument resolved from the stack: `exit`
with the popped integer, `printf` with the text of the global string created for it. -/
inductive Call where
  | exit (code : Int)
  | printf (text : List Char)
  deriving DecidableEq, Repr

/-- The text a reader of the pointer `text.c_str()` sees, as `CreateGlobalString` does when
it is handed `pop.c_str()`: the bytes before the first NUL byte. -/
def c_str (text : List Char) : List Char :=
  text.takeWhile fun c => decide (c ≠ Char.ofNat 0)

/-- The body of the `for` loop of `compileToLLVMIR`: the `switch` on `program[i].type` and,
for an intrinsic, on `program[i].operand`.  For `PUTS` the popped `std::string pop` reaches
`CreateGlobalString` as `pop.c_str()`. -/
def compileOp (st : Stack × List Call) (op : OP) : Outcome (Stack × List Call) :=
  match op.type with
  | .PUSHI => (st.1.push op.operand).bind fun s => .ret (s, st.2)
  | .PUSHS => (st.1.pushs op.soperand).bind fun s => .ret (s, st.2)
  | .INTRINSIC =>
    if op.operand = ENUMI .EXIT then
      st.1.pop.bind fun r => .ret (r.2, st.2 ++ [Call.exit r.1])
    else if op.operand = ENUMI .PUTS then
      st.1.pops.bind fun r => .ret (r.2, st.2 ++ [Call.printf (c_str r.1)])
    else .ret st
  | .NOP => .ret st

/-- The `for` loop of `compileToLLVMIR` over the instructions still to replay. -/
def compileLoop : List OP → Stack × List Call → Outcome (Stack × List Call)
  | [], st => .ret st
  | op :: rest, st => (compileOp st op).bind fun st1 => compileLoop rest st1

/-- The replay of `compileToLLVMIR` on `program`: a fresh `Stack{}`, then the loop; the final
stack and the calls emitted, in order. -/
def compileToLLVMIR (program : List OP) : Outcome (Stack × List Call) :=
  compileLoop program (Stack.fresh, [])

/-- Parse `source` into an empty program and replay the result: the calls emitted. -/
def resolve (source : List Char) (fuel : Nat) : Option (Outcome (List Call)) :=
  match parseProgram source [] fuel with
  | none => none
  | some o => some (o.bind fun program => (compileToLLVMIR program).bind fun r => .ret r.2)

/-! ## Sequences of calls on a `Stack` -/

/-- A call of one of the four methods of `Stack`. -/
inductive StackCall where
  | push (operand : Int)
  | pushs (text : List Char)
  | pop
  | pops
  deriving DecidableEq, Repr

/-- Run one method call; the value a `pop` or `pops` returns is dropped. -/
def StackCall.run (s : Stack) : StackCall → Outcome Stack
  | .push operand => s.push operand
  | .pushs text => s.pushs text
  | .pop => s.pop.bind fun r => .ret r.2
  | .pops => s.pops.bind fun r => .ret r.2

/-- Run method calls one after the other. -/
def runCalls : Stack → List StackCall → Outcome Stack
  | s, [] => .ret s
  | s, c :: rest => (c.run s).bind fun s1 => runCalls s1 rest

/-- The texts handed to `pushs` in a sequence of calls, in order. -/
def pushedTexts : List StackCall → List (List Char)
  | [] => []
  | .pushs text :: rest => text :: pushedTexts rest
  | _ :: rest => pushedTexts rest

/-- The instruction `pushi v`, as `parseProgram` builds it. -/
def opPushi (v : Int) : OP := { type := .PUSHI, operand := v }

/-- The shape every stack reached from `Stack{}` has: a hundred cells and a stack pointer
between 0 and 100. -/
def Stack.Shaped (s : Stack) : Prop :=
  s.stack.length = 100 ∧ 0 ≤ s.sp ∧ s.sp ≤ 100

/-- What the string table and the counter hold after the texts `ts` were interned. -/
def Stack.Interned (s : Stack) (ts : List (List Char)) : Prop :=
  s.strcnt = ts.length ∧
    ∀ (k : Nat) (text : List Char), ts[k]? = some text → tableFind s.stringtable k = some text

/-! ## The scan seen on the text that is left

The functions below restate the scan of `parseProgram` on the part of the source text that
lies after the cursor.  They are not taken from the source: `parseLoop_eq_lexLoop` and the
lemmas before it prove that they compute what `parseLoop` computes, and the theorems about
`parseProgram` are proved through them. -/

/-- What an escape pair `\e` adds to the decoded text. -/
def escapeText (e : Char) : List Char :=
  if e = 'n' then [Char.ofNat 0xA] else if e = 't' then [Char.ofNat 0x09] else []

/-- The body of a string literal read off the text after the opening quote: the decoded text
(appended to `str`) and the text after the closing quote, or `none` without a closing quote. -/
def lexStr : List Char → List Char → Option (List Char × List Char)
  | [], _ => none
  | [c], str => if c = '"' then some (str, []) else none
  | c :: e :: rest, str =>
    if c = '"' then some (str, e :: rest)
    else if c ≠ '\\' then lexStr (e :: rest) (str ++ [c])
    else lexStr rest (str ++ escapeText e)

/-- One iteration of the scan loop on the text `suf` after the cursor, for the accumulator
and the program `x`: the new accumulator and program, and the text left. -/
def lexStep (suf : List Char) (x : OP × List OP) : Outcome ((OP × List OP) × List Char) :=
  match suf with
  | [] => .ret (x, [])
  | c :: rest =>
    if c = ';' then .ret (({}, x.2 ++ [x.1]), rest)
    else if c = '\n' ∨ c = ' ' then .ret (x, rest)
    else if c = '"' then
      match lexStr rest [] with
      | some (d, r) => .ret (({ x.1 with soperand := d }, x.2), r)
      | none => .undefined
    else if isalpha c then
      .ret ((applyIdent x.1 ((c :: rest).takeWhile isalpha), x.2), (c :: rest).dropWhile isalpha)
    else if isalnum c then
      (stoi ((c :: rest).takeWhile isalnum)).bind fun n =>
        .ret (({ x.1 with operand := n }, x.2), (c :: rest).dropWhile isalnum)
    else .ret (x, c :: rest)

/-- The scan loop on the text after the cursor, for at most `fuel` iterations. -/
def lexLoop : Nat → List Char → OP × List OP → Option (Outcome (OP × List OP))
  | 0, _, _ => none
  | fuel + 1, suf, x =>
    if suf = [] then some (.ret x)
    else
      match lexStep suf x with
      | .ret (x1, suf1) => lexLoop fuel suf1 x1
      | .throws e => some (.throws e)
      | .undefined => some .undefined

/-- The state `parseLoop` ends in, with the cursor at `n`, for a result of `lexLoop`. -/
def finalState (n : Nat) (o : Outcome (OP × List OP)) : Outcome PState :=
  o.bind fun y => .ret { current := y.1, cursor := n, program := y.2 }

/-- The program of a result of `lexLoop`. -/
def finalProgram (o : Outcome (OP × List OP)) : Outcome (List OP) :=
  o.bind fun y => .ret y.2

/-! ## Source texts built from statements

The grammar of section 6 of the specification, `<keyword> [<literal>] ;`, as data: the
texts of the literals and of the white space are kept, so that every source text of the
grammar is the text of a list of statements. -/

/-- A piece of the body of a string literal: a character other than `"` and the backslash,
or a backslash with the character after it. -/
inductive StrItem where
  | plain (c : Char)
  | escape (c : Char)
  deriving DecidableEq, Repr

/-- The source text of a piece. -/
def StrItem.text : StrItem → List Char
  | .plain c => [c]
  | .escape c => ['\\', c]

/-- What the specification says a piece decodes to: `\n` is the newline byte, `\t` the tab
byte, every other backslash pair nothing, every other character itself. -/
def StrItem.decoded : StrItem → List Char
  | .plain c => [c]
  | .escape c => if c = 'n' then ['\n'] else if c = 't' then ['\t'] else []

/-- A plain piece is neither the quote nor the backslash. -/
def StrItem.Valid : StrItem → Prop
  | .plain c => c ≠ '"' ∧ c ≠ '\\'
  | .escape _ => True

/-- The source text of a body. -/
def bodyText : List StrItem → List Char
  | [] => []
  | item :: rest => item.text ++ bodyText rest

/-- The decoded text of a body. -/
def bodyDecoded : List StrItem → List Char
  | [] => []
  | item :: rest => item.decoded ++ bodyDecoded rest

/-- The four statements of the language, with the text of their literal. -/
inductive Stmt where
  | pushi (digits : List Char)
  | pushs (body : List StrItem)
  | puts
  | exit
  deriving DecidableEq, Repr

/-- The keyword of a statement. -/
def Stmt.keyword : Stmt → List Char
  | .pushi _ => "pushi".toList
  | .pushs _ => "pushs".toList
  | .puts => "puts".toList
  | .exit => "exit".toList

/-- The literal of a statement, as written in the source text. -/
def Stmt.literal : Stmt → List Char
  | .pushi digits => digits
  | .pushs body => '"' :: bodyText body ++ ['"']
  | .puts => []
  | .exit => []

/-- The instruction the specification gives for a statement. -/
def Stmt.op : Stmt → OP
  | .pushi digits => { type := .PUSHI, operand := decimalValue digits, soperand := [] }
  | .pushs body => { type := .PUSHS, operand := 0, soperand := bodyDecoded body }
  | .puts => { type := .INTRINSIC, operand := 1, soperand := [] }
  | .exit => { type := .INTRINSIC, operand := 0, soperand := [] }

/-- White space: spaces and newlines only. -/
def Blank (ws : List Char) : Prop :=
  ∀ c ∈ ws, c = ' ' ∨ c = '\n'

/-- The literal of a statement is well formed: an integer literal is a non-empty run of
decimal digits whose value is an `int`, and the plain pieces of a string body are valid. -/
def Stmt.Valid : Stmt → Prop
  | .pushi digits =>
    digits ≠ [] ∧ (∀ c ∈ digits, isdigit c = true) ∧ decimalValue digits ≤ 2147483647
  | .pushs body => ∀ item ∈ body, item.Valid
  | .puts => True
  | .exit => True

/-- A statement with the white space around its tokens: before the keyword, between the
keyword and the literal, and between the literal and the terminator. -/
structure Statement where
  lead : List Char
  stmt : Stmt
  gap : List Char
  trail : List Char
  deriving DecidableEq, Repr

/-- The source text of a statement. -/
def Statement.text (s : Statement) : List Char :=
  s.lead ++ (s.stmt.keyword ++ (s.gap ++ (s.stmt.literal ++ (s.trail ++ [';']))))

/-- A statement is well formed: its literal is, and its gaps are white space. -/
def Statement.Valid (s : Statement) : Prop :=
  s.stmt.Valid ∧ Blank s.lead ∧ Blank s.gap ∧ Blank s.trail

/-- The source text of a list of statements. -/
def render : List Statement → List Char
  | [] => []
  | s :: rest => s.text ++ render rest

/-- The text `l` does not start with a character of the class `p`. -/
def StartsOutside (p : Char → Bool) (l : List Char) : Prop :=
  ∀ c, l.head? = some c → p c = false

/-! ## Pushes followed by their intrinsic -/

/-- A literal of the source language: a run of decimal digits, or the text between the
quotes of a string literal. -/
inductive Literal where
  | int (digits : List Char)
  | text (s : List Char)
  deriving DecidableEq, Repr

/-- The statement that pushes the literal. -/
def Literal.push : Literal → Stmt
  | .int digits => .pushi digits
  | .text s => .pushs (s.map StrItem.plain)

/-- The matching intrinsic: `exit` for an integer, `puts` for a text. -/
def Literal.intrinsic : Literal → Stmt
  | .int _ => .exit
  | .text _ => .puts

/-- The call the pair is to resolve to, as the specification has it: `exit` with the value
of the integer literal, `printf` with the text of the string literal. -/
def Literal.call : Literal → Call
  | .int digits => .exit (decimalValue digits)
  | .text s => .printf s

/-- The call the replay emits for the pair: `exit` with the value of the integer literal,
`printf` with the text of the string literal up to its first NUL byte. -/
def Literal.emitted : Literal → Call
  | .int digits => .exit (decimalValue digits)
  | .text s => .printf (c_str s)

/-- The text of a string literal has no NUL byte (an integer literal has no text). -/
def Literal.NulFree : Literal → Prop
  | .int _ => True
  | .text s => Char.ofNat 0 ∉ s

/-- The literal is well formed: a non-empty run of decimal digits whose value fits a 32-bit
`int`, or a text without `"` and without backslash. -/
def Literal.Valid : Literal → Prop
  | .int digits =>
    digits ≠ [] ∧ (∀ c ∈ digits, isdigit c = true) ∧ decimalValue digits ≤ 2147483647
  | .text s => ∀ c ∈ s, c ≠ '"' ∧ c ≠ '\\'

/-- The white space around the tokens of one statement. -/
structure Spacing where
  lead : List Char
  gap : List Char
  trail : List Char
  deriving DecidableEq, Repr

/-- All of it is white space. -/
def Spacing.Valid (sp : Spacing) : Prop :=
  Blank sp.lead ∧ Blank sp.gap ∧ Blank sp.trail

/-- The statement `st` written with the white space `sp`. -/
def Spacing.around (sp : Spacing) (st : Stmt) : Statement :=
  { lead := sp.lead, stmt := st, gap := sp.gap, trail := sp.trail }

/-- A push statement immediately followed by its matching intrinsic statement. -/
structure PushCall where
  literal : Literal
  pushSpacing : Spacing
  callSpacing : Spacing
  deriving DecidableEq, Repr

/-- The pair is well formed. -/
def PushCall.Valid (p : PushCall) : Prop :=
  p.literal.Valid ∧ p.pushSpacing.Valid ∧ p.callSpacing.Valid

/-- The statements of a list of pairs. -/
def pairStatements : List PushCall → List Statement
  | [] => []
  | p :: rest =>
    p.pushSpacing.around p.literal.push :: p.callSpacing.around p.literal.intrinsic ::
      pairStatements rest

/-! ## Tokens of a source text, read off the text alone -/

/-- Where a position of the source text lies: between tokens (`code`), inside or just after
a run of letters that starts an identifier (`ident`), inside or just after a run of letters
and digits that starts with a digit (`number`), inside a string literal (`string`), or
inside a string literal just after a backslash (`escape`). -/
inductive Mode where
  | code
  | ident
  | number
  | string
  | escape
  deriving DecidableEq, Repr

/-- The mode after one more character. -/
def Mode.next (m : Mode) (c : Char) : Mode :=
  match m with
  | .string => if c = '"' then .code else if c = '\\' then .escape else .string
  | .escape => .string
  | .number => if c = '"' then .string else if isalnum c then .number else .code
  | .ident =>
    if c = '"' then .string else if isalpha c then .ident else if isdigit c then .number
    else .code
  | .code =>
    if c = '"' then .string else if isalpha c then .ident else if isdigit c then .number
    else .code

/-- The position is inside a string literal. -/
def Mode.inLiteral : Mode → Bool
  | .string => true
  | .escape => true
  | .code => false
  | .ident => false
  | .number => false

/-- The mode after the text `a`, starting in the mode `m`. -/
def modeAfter (m : Mode) : List Char → Mode
  | [] => m
  | c :: rest => modeAfter (m.next c) rest

/-- The number of terminators of a text: the characters `;` that are not inside a string
literal. -/
def terminators (m : Mode) : List Char → Nat
  | [] => 0
  | c :: rest => (if c = ';' ∧ m.inLiteral = false then 1 else 0) + terminators (m.next c) rest

/-- The text `b` can follow a position in the mode `m` without continuing the token the
position is in: any text after a position between tokens, a text that does not start with a
letter after a run of letters, a text that does not start with a letter or a digit after a
number run, and no text at all inside a string literal. -/
def Mode.Ends (m : Mode) (b : List Char) : Prop :=
  match m with
  | .code => True
  | .ident => StartsOutside isalpha b
  | .number => StartsOutside isalnum b
  | .string => False
  | .escape => False

/-- The position between `a` and `b` in the source text `a ++ b` is a token boundary: it is
not inside a string literal and splits neither a maximal run of letters that forms an
identifier nor a maximal run of letters and digits that starts with a digit. -/
def TokenBoundary (a b : List Char) : Prop :=
  (modeAfter .code a).Ends b

/-- With enough fuel `parseProgram`, run on `source` with the vector holding `program`,
ends in the outcome `r`. -/
def Yields (source : List Char) (program : List OP) (r : Outcome (List OP)) : Prop :=
  ∃ fuel, parseProgram source program fuel = some r

/-- With enough fuel the scan of the text `suf` from `x` ends in the outcome `r`. -/
def LexYields (suf : List Char) (x : OP × List OP) (r : Outcome (OP × List OP)) : Prop :=
  ∃ fuel, lexLoop fuel suf x = some r

/-- What the scan yields after a first iteration with the outcome `o` that leaves the text
`rest`. -/
def YieldsAfter (o : Outcome (OP × List OP)) (rest : List Char)
    (r : Outcome (OP × List OP)) : Prop :=
  match o with
  | .ret y => LexYields rest y r
  | .throws e => r = .throws e
  | .undefined => r = .undefined

/-! ## Instructions -/

/-- The invariant of section 3 of the specification: the fields an instruction kind does not
use are zero or empty, and an intrinsic is `EXIT` (0) or `PUTS` (1). -/
def OP.Clean (op : OP) : Prop :=
  match op.type with
  | .NOP => op.operand = 0 ∧ op.soperand = []
  | .PUSHI => op.soperand = []
  | .PUSHS => op.operand = 0
  | .INTRINSIC => op.soperand = [] ∧ (op.operand = 0 ∨ op.operand = 1)

/-! ## Empty statements, and statements with string literals -/

/-- A statement of the grammar, or an empty statement: a terminator with nothing but white
space before it. -/
inductive Item where
  | full (s : Statement)
  | bare (lead : List Char)
  deriving DecidableEq, Repr

/-- The source text of an item. -/
def Item.text : Item → List Char
  | .full s => s.text
  | .bare lead => lead ++ [';']

/-- The instruction of an item; an empty statement gives the reset accumulator, a `NOP`. -/
def Item.op : Item → OP
  | .full s => s.stmt.op
  | .bare _ => {}

/-- The item is well formed. -/
def Item.Valid : Item → Prop
  | .full s => s.Valid
  | .bare lead => Blank lead

/-- The source text of a list of items. -/
def renderItems : List Item → List Char
  | [] => []
  | item :: rest => item.text ++ renderItems rest

/-- The four keywords. -/
inductive Keyword where
  | pushi
  | pushs
  | puts
  | exit
  deriving DecidableEq, Repr

/-- The text of a keyword, or no text for no keyword. -/
def keywordText : Option Keyword → List Char
  | some .pushi => "pushi".toList
  | some .pushs => "pushs".toList
  | some .puts => "puts".toList
  | some .exit => "exit".toList
  | none => []

/-- The accumulator a keyword leaves when it is read at the start of a statement; the reset
accumulator without a keyword. -/
def keywordOp : Option Keyword → OP
  | some .pushi => { type := .PUSHI, operand := 0, soperand := [] }
  | some .pushs => { type := .PUSHS, operand := 0, soperand := [] }
  | some .puts => { type := .INTRINSIC, operand := 1, soperand := [] }
  | some .exit => { type := .INTRINSIC, operand := 0, soperand := [] }
  | none => { type := .NOP, operand := 0, soperand := [] }

/-- The text of string literals, each after some white space. -/
def literalsText : List (List Char × List StrItem) → List Char
  | [] => []
  | (ws, body) :: rest => ws ++ ('"' :: (bodyText body ++ '"' :: literalsText rest))

/-- A statement made of an optional keyword followed by one or more string literals: the
literals `earlier`, each with the white space before it, then the literal `last`. -/
structure StringStatement where
  lead : List Char
  keyword : Option Keyword
  earlier : List (List Char × List StrItem)
  gap : List Char
  last : List StrItem
  trail : List Char
  deriving DecidableEq, Repr

/-- The source text of such a statement. -/
def StringStatement.text (s : StringStatement) : List Char :=
  s.lead ++ (keywordText s.keyword ++ (literalsText s.earlier ++
    (s.gap ++ ('"' :: (bodyText s.last ++ '"' :: (s.trail ++ [';']))))))

/-- The instruction the claim gives for such a statement: the kind (and operand) set by the
keyword, and the decoded last literal as the string operand. -/
def StringStatement.op (s : StringStatement) : OP :=
  { keywordOp s.keyword with soperand := bodyDecoded s.last }

/-- The statement is well formed: white space where white space is meant, and valid
literal bodies. -/
def StringStatement.Valid (s : StringStatement) : Prop :=
  Blank s.lead ∧ (∀ p ∈ s.earlier, Blank p.1 ∧ ∀ item ∈ p.2, item.Valid) ∧ Blank s.gap ∧
    (∀ item ∈ s.last, item.Valid) ∧ Blank s.trail

/-- What the scan yields on `a ++ t` once the part `a` is summarised by `s`: nothing when
the scan never leaves `a`, and what it yields after `a` otherwise. -/
def AfterPrefix (s : Option (Outcome (OP × List OP))) (t : List Char)
    (r : Outcome (OP × List OP)) : Prop :=
  match s with
  | none => False
  | some o => YieldsAfter o t r

/-- The outcome `o` of a scan, had the program held `p` in front of what it held. -/
def prependProgram (p : List OP) (o : Outcome (OP × List OP)) : Outcome (OP × List OP) :=
  o.bind fun y => .ret (y.1, p ++ y.2)

/-! ## Theorems -/

/-! ### Outcomes and tables -/

@[simp] theorem bind_ret {α β : Type} (a : α) (f : α → Outcome β) :
    (Outcome.ret a).bind f = f a := rfl

@[simp] theorem bind_throws {α β : Type} (e : Exn) (f : α → Outcome β) :
    (Outcome.throws e : Outcome α).bind f = .throws e := rfl

@[simp] theorem bind_undefined {α β : Type} (f : α → Outcome β) :
    (Outcome.undefined : Outcome α).bind f = .undefined := rfl

theorem bind_eq_ret {α β : Type} {o : Outcome α} {f : α → Outcome β} {b : β}
    (h : o.bind f = .ret b) : ∃ a, o = .ret a ∧ f a = .ret b := by
  cases o with
  | ret a => exact ⟨a, rfl, h⟩
  | throws e => simp at h
  | undefined => simp at h

theorem tableFind_assign_same (t : List (Int × List Char)) (k : Int) (s : List Char) :
    tableFind (tableAssign t k s) k = some s := by
  induction t with
  | nil => simp [tableAssign, tableFind]
  | cons p rest ih =>
    obtain ⟨k1, v1⟩ := p
    by_cases h : k1 = k
    · simp [tableAssign, tableFind, h]
    · simp [tableAssign, tableFind, h, ih]

theorem tableFind_assign_other (t : List (Int × List Char)) (k j : Int) (s : List Char)
    (h : j ≠ k) : tableFind (tableAssign t k s) j = tableFind t j := by
  induction t with
  | nil => simp [tableAssign, tableFind, h.symm]
  | cons p rest ih =>
    obtain ⟨k1, v1⟩ := p
    by_cases h1 : k1 = k
    · subst h1
      simp [tableAssign, tableFind, h.symm]
    · by_cases h2 : k1 = j
      · subst h2
        simp [tableAssign, tableFind, h1]
      · simp [tableAssign, tableFind, h1, h2, ih]

theorem tableFind_index (t : List (Int × List Char)) (k j : Int) (v : List Char)
    (h : tableFind t j = some v) : tableFind (tableIndex t k).2 j = some v := by
  unfold tableIndex
  cases hk : tableFind t k with
  | some s => simpa using h
  | none =>
    have hne : j ≠ k := by
      rintro rfl
      rw [hk] at h
      cases h
    simpa [tableFind_assign_other t k j [] hne] using h

/-! ### The stack -/

theorem fresh_shaped : Stack.fresh.Shaped := by
  simp [Stack.Shaped, Stack.fresh]

theorem push_eq_ret {s s1 : Stack} {v : Int} (h : s.push v = .ret s1) :
    0 ≤ s.sp ∧ s.sp < 100 ∧
      s1 = { s with stack := s.stack.set s.sp.toNat v, sp := s.sp + 1 } := by
  unfold Stack.push at h
  split at h
  · rename_i hb
    simp only [Outcome.ret.injEq] at h
    exact ⟨hb.1, hb.2, h.symm⟩
  · cases h

theorem push_of_room (s : Stack) (v : Int) (h0 : 0 ≤ s.sp) (h1 : s.sp < 100) :
    s.push v = .ret { s with stack := s.stack.set s.sp.toNat v, sp := s.sp + 1 } := by
  simp [Stack.push, h0, h1]

theorem push_full (s : Stack) (v : Int) (h : 100 ≤ s.sp) : s.push v = .undefined := by
  have : ¬ (0 ≤ s.sp ∧ s.sp < 100) := by omega
  simp [Stack.push, this]

theorem pop_eq_ret {s : Stack} {r : Int × Stack} (h : s.pop = .ret r) :
    1 ≤ s.sp ∧ s.sp ≤ 100 ∧
      r = (s.stack.getD (s.sp - 1).toNat 0, { s with sp := s.sp - 1 }) := by
  unfold Stack.pop at h
  split at h
  · rename_i hb
    simp only [Outcome.ret.injEq] at h
    exact ⟨by omega, by omega, h.symm⟩
  · cases h

theorem pop_empty (s : Stack) (h : s.sp ≤ 0) : s.pop = .undefined := by
  have : ¬ (0 ≤ s.sp - 1 ∧ s.sp - 1 < 100) := by omega
  rw [Stack.pop, if_neg this]

theorem pops_empty (s : Stack) (h : s.sp ≤ 0) : s.pops = .undefined := by
  simp [Stack.pops, pop_empty s h]

theorem run_shaped {s s1 : Stack} {c : StackCall} (hs : s.Shaped) (h : c.run s = .ret s1) :
    s1.Shaped := by
  obtain ⟨hl, h0, h1⟩ := hs
  cases c with
  | push v =>
    obtain ⟨_, hlt, rfl⟩ := push_eq_ret h
    exact ⟨by simpa using hl, by simp only; omega, by simp only; omega⟩
  | pushs t =>
    obtain ⟨_, hlt, rfl⟩ := push_eq_ret h
    dsimp only at hlt
    exact ⟨by simpa using hl, by simp only; omega, by simp only; omega⟩
  | pop =>
    obtain ⟨r, hr, hret⟩ := bind_eq_ret h
    obtain ⟨hge, _, rfl⟩ := pop_eq_ret hr
    simp only [Outcome.ret.injEq] at hret
    subst hret
    exact ⟨hl, by simp only; omega, by simp only; omega⟩
  | pops =>
    obtain ⟨r, hr, hret⟩ := bind_eq_ret h
    obtain ⟨r0, hr0, hret0⟩ := bind_eq_ret hr
    obtain ⟨hge, _, rfl⟩ := pop_eq_ret hr0
    simp only [Outcome.ret.injEq] at hret0 hret
    subst hret0
    subst hret
    exact ⟨hl, by simp only; omega, by simp only; omega⟩

theorem compileLoop_append (a b : List OP) (st : Stack × List Call) :
    compileLoop (a ++ b) st = (compileLoop a st).bind (compileLoop b) := by
  induction a generalizing st with
  | nil => simp [compileLoop]
  | cons op rest ih =>
    simp only [List.cons_append, compileLoop]
    cases compileOp st op with
    | ret st1 => simpa using ih st1
    | throws e => rfl
    | undefined => rfl

theorem compileLoop_pushi (vs : List Int) (s : Stack) (calls : List Call) :
    compileLoop (vs.map opPushi) (s, calls) =
      (runCalls s (vs.map StackCall.push)).bind fun s1 => .ret (s1, calls) := by
  induction vs generalizing s with
  | nil => simp [compileLoop, runCalls]
  | cons v rest ih =>
    simp only [List.map_cons, compileLoop, runCalls, compileOp, opPushi, StackCall.run]
    cases s.push v with
    | ret s1 => simpa using ih s1
    | throws e => rfl
    | undefined => rfl

theorem runCalls_append (a b : List StackCall) (s : Stack) :
    runCalls s (a ++ b) = (runCalls s a).bind fun s1 => runCalls s1 b := by
  induction a generalizing s with
  | nil => simp [runCalls]
  | cons c rest ih =>
    simp only [List.cons_append, runCalls]
    cases c.run s with
    | ret s1 => simpa using ih s1
    | throws e => rfl
    | undefined => rfl

theorem runCalls_shaped {calls : List StackCall} {s s1 : Stack} (hs : s.Shaped)
    (h : runCalls s calls = .ret s1) : s1.Shaped := by
  induction calls generalizing s with
  | nil =>
    simp only [runCalls, Outcome.ret.injEq] at h
    subst h
    exact hs
  | cons c rest ih =>
    simp only [runCalls] at h
    obtain ⟨s2, h2, hret⟩ := bind_eq_ret h
    exact ih (run_shaped hs h2) hret

/-- Pushing `vs` onto a stack whose first cells hold `done` and whose other cells are zero. -/
theorem runCalls_push_room (vs done : List Int) (cnt : Int) (table : List (Int × List Char))
    (h : done.length + vs.length ≤ 100) :
    runCalls { stack := done ++ List.replicate (100 - done.length) 0, strcnt := cnt,
               stringtable := table, sp := done.length } (vs.map StackCall.push) =
      .ret { stack := (done ++ vs) ++ List.replicate (100 - (done ++ vs).length) 0,
             strcnt := cnt, stringtable := table, sp := (done ++ vs).length } := by
  induction vs generalizing done with
  | nil => simp [runCalls]
  | cons v rest ih =>
    simp only [List.length_cons] at h
    have hlt : done.length < 100 := by omega
    have hrep : List.replicate (100 - done.length) (0 : Int) =
        0 :: List.replicate (100 - (done ++ [v]).length) 0 := by
      have : 100 - done.length = (100 - (done ++ [v]).length) + 1 := by
        simp only [List.length_append, List.length_singleton]
        omega
      rw [this, List.replicate_succ]
    have hstep :
        Stack.push { stack := done ++ List.replicate (100 - done.length) 0,
                     strcnt := cnt, stringtable := table, sp := done.length } v =
        .ret { stack := (done ++ [v]) ++ List.replicate (100 - (done ++ [v]).length) 0,
               strcnt := cnt, stringtable := table, sp := ((done ++ [v]).length : Nat) } := by
      rw [push_of_room _ _ (by simp) (by simp only; omega)]
      simp only [Int.toNat_ofNat, List.length_append, List.length_singleton, Nat.cast_add,
        Nat.cast_one, Outcome.ret.injEq, Stack.mk.injEq, and_true, true_and]
      rw [List.set_append_right _ _ (le_refl _), hrep]
      simp
    simp only [List.map_cons, runCalls, StackCall.run, hstep, bind_ret]
    have := ih (done ++ [v]) (by simp only [List.length_append, List.length_singleton]; omega)
    simpa using this

theorem pushs_interned {s s1 : Stack} {ts : List (List Char)} {text : List Char}
    (hi : s.Interned ts) (h : s.pushs text = .ret s1) : s1.Interned (ts ++ [text]) := by
  obtain ⟨hc, ht⟩ := hi
  obtain ⟨_, _, rfl⟩ := push_eq_ret h
  refine ⟨by simp [hc], ?_⟩
  intro k old hk
  dsimp only
  by_cases hlt : k < ts.length
  · rw [List.getElem?_append_left hlt] at hk
    rw [tableFind_assign_other _ _ _ _ (by rw [hc]; exact_mod_cast (Nat.ne_of_lt hlt))]
    exact ht k old hk
  · have hk0 := hk
    rw [List.getElem?_append_right (by omega)] at hk
    have hk1 : k - ts.length = 0 := by
      by_contra hne
      rw [List.getElem?_eq_none (by simp; omega)] at hk
      cases hk
    have hk2 : k = ts.length := by omega
    rw [hk1] at hk
    simp only [List.getElem?_cons_zero, Option.some.injEq] at hk
    subst hk
    rw [hk2, ← hc]
    exact tableFind_assign_same _ _ _

theorem run_interned {s s1 : Stack} {c : StackCall} {ts : List (List Char)}
    (hi : s.Interned ts) (h : c.run s = .ret s1) : s1.Interned (ts ++ pushedTexts [c]) := by
  cases c with
  | push v =>
    obtain ⟨_, _, rfl⟩ := push_eq_ret h
    simpa [pushedTexts] using hi
  | pushs t => simpa [pushedTexts] using pushs_interned hi h
  | pop =>
    obtain ⟨r, hr, hret⟩ := bind_eq_ret h
    obtain ⟨_, _, rfl⟩ := pop_eq_ret hr
    simp only [Outcome.ret.injEq] at hret
    subst hret
    simpa [pushedTexts] using hi
  | pops =>
    obtain ⟨r, hr, hret⟩ := bind_eq_ret h
    obtain ⟨r0, hr0, hret0⟩ := bind_eq_ret hr
    obtain ⟨_, _, rfl⟩ := pop_eq_ret hr0
    simp only [Outcome.ret.injEq] at hret0 hret
    subst hret0
    subst hret
    refine ⟨by simpa [pushedTexts] using hi.1, ?_⟩
    intro k text hk
    simp only [pushedTexts, List.append_nil] at hk
    exact tableFind_index _ _ _ _ (hi.2 k text hk)

theorem pushedTexts_cons (c : StackCall) (rest : List StackCall) :
    pushedTexts (c :: rest) = pushedTexts [c] ++ pushedTexts rest := by
  cases c <;> simp [pushedTexts]

theorem runCalls_interned {calls : List StackCall} {s s1 : Stack} {ts : List (List Char)}
    (hi : s.Interned ts) (h : runCalls s calls = .ret s1) :
    s1.Interned (ts ++ pushedTexts calls) := by
  induction calls generalizing s ts with
  | nil =>
    simp only [runCalls, Outcome.ret.injEq] at h
    subst h
    simpa [pushedTexts] using hi
  | cons c rest ih =>
    simp only [runCalls] at h
    obtain ⟨s2, h2, hret⟩ := bind_eq_ret h
    have := ih (run_interned hi h2) hret
    rw [pushedTexts_cons, ← List.append_assoc]
    exact this

theorem fresh_interned : Stack.fresh.Interned [] := by
  simp [Stack.Interned, Stack.fresh]

/-! ### Claims about the replay on the operand stack -/

/-- C7, as stated, fails: replaying the program parsed from a bare `exit;` or a bare `puts;`
does not report an error.  The pop reads `stack[-1]`, which is undefined behaviour, and
nothing is thrown. -/
theorem bare_intrinsic_reports_nothing :
    resolve "exit;".toList 6 = some .undefined ∧
    resolve "puts;".toList 6 = some .undefined ∧
    (∀ e, resolve "exit;".toList 6 ≠ some (.throws e)) ∧
    (∀ e, resolve "puts;".toList 6 ≠ some (.throws e)) := by
  have h1 : resolve "exit;".toList 6 = some .undefined := by decide
  have h2 : resolve "puts;".toList 6 = some .undefined := by decide
  refine ⟨h1, h2, ?_, ?_⟩
  · intro e h
    rw [h1] at h
    cases h
  · intro e h
    rw [h2] at h
    cases h

/-- C7, amended: when the replay of `pre` leaves the operand stack empty (`sp = 0`), `pop`
and `pops` have undefined behaviour (they read `stack[-1]`), and so has the replay of any
program that continues with an intrinsic `exit` or `puts`: no error is reported. -/
theorem pop_on_empty_stack_undefined (pre rest : List OP) (k : IntrinsicType) (s : Stack)
    (calls : List Call) (hpre : compileToLLVMIR pre = .ret (s, calls)) (hsp : s.sp = 0) :
    s.pop = .undefined ∧ s.pops = .undefined ∧
      compileToLLVMIR (pre ++ OP_INTRINSIC k :: rest) = .undefined := by
  have hpop := pop_empty s (le_of_eq hsp)
  have hpops := pops_empty s (le_of_eq hsp)
  refine ⟨hpop, hpops, ?_⟩
  unfold compileToLLVMIR at hpre ⊢
  rw [compileLoop_append, hpre]
  cases k <;> simp [compileLoop, compileOp, OP_INTRINSIC, ENUMI, hpop, hpops]

theorem pop_on_empty_stack_undefined_witness :
    Stack.fresh.pop = .undefined ∧ Stack.fresh.pops = .undefined ∧
      compileToLLVMIR ([] ++ OP_INTRINSIC .EXIT :: []) = .undefined :=
  pop_on_empty_stack_undefined [] [] .EXIT Stack.fresh [] rfl rfl

/-- C8, as stated, fails: replaying 101 `pushi 7` instructions does not report an error.  The
101st push writes `stack[100]`, which is undefined behaviour, and nothing is thrown. -/
theorem overflowing_push_reports_nothing :
    compileToLLVMIR (List.replicate 101 (opPushi 7)) = .undefined ∧
    ∀ e, compileToLLVMIR (List.replicate 101 (opPushi 7)) ≠ .throws e := by
  have h : compileToLLVMIR (List.replicate 101 (opPushi 7)) = .undefined := by decide
  refine ⟨h, ?_⟩
  intro e he
  rw [h] at he
  cases he

/-- C8, amended: on a fresh stack up to 100 pushes succeed, cell `i` then holds the `i`-th
value pushed and `sp` is their number; a sequence of more than 100 pushes has undefined
behaviour (the 101st writes `stack[100]`), and no error is reported.  The same holds of the
replay of a program of `pushi` instructions. -/
theorem hundred_pushes_then_undefined (vs : List Int) :
    (vs.length ≤ 100 →
      runCalls Stack.fresh (vs.map StackCall.push) =
        .ret { stack := vs ++ List.replicate (100 - vs.length) 0, strcnt := 0,
               stringtable := [], sp := vs.length } ∧
      compileToLLVMIR (vs.map opPushi) =
        .ret ({ stack := vs ++ List.replicate (100 - vs.length) 0, strcnt := 0,
                stringtable := [], sp := vs.length }, [])) ∧
    (100 < vs.length →
      runCalls Stack.fresh (vs.map StackCall.push) = .undefined ∧
      compileToLLVMIR (vs.map opPushi) = .undefined) := by
  have hroom : ∀ ws : List Int, ws.length ≤ 100 →
      runCalls Stack.fresh (ws.map StackCall.push) =
        .ret { stack := ws ++ List.replicate (100 - ws.length) 0, strcnt := 0,
               stringtable := [], sp := ws.length } := by
    intro ws hws
    have := runCalls_push_room ws [] 0 [] (by simpa using hws)
    simpa [Stack.fresh] using this
  constructor
  · intro hle
    refine ⟨hroom vs hle, ?_⟩
    unfold compileToLLVMIR
    rw [compileLoop_pushi, hroom vs hle]
    rfl
  · intro hlt
    have hsplit : vs = vs.take 100 ++ vs.drop 100 := (List.take_append_drop 100 vs).symm
    have htake : (vs.take 100).length = 100 := by
      rw [List.length_take]
      omega
    have hrun : runCalls Stack.fresh (vs.map StackCall.push) = .undefined := by
      rw [hsplit, List.map_append, runCalls_append, hroom _ (le_of_eq htake)]
      cases hd : vs.drop 100 with
      | nil =>
        have : (vs.drop 100).length = 0 := by rw [hd]; rfl
        rw [List.length_drop] at this
        omega
      | cons v rest =>
        simp only [bind_ret, List.map_cons, runCalls, StackCall.run]
        rw [push_full _ _ (by simp only [htake]; norm_num)]
        rfl
    refine ⟨hrun, ?_⟩
    unfold compileToLLVMIR
    rw [compileLoop_pushi, hrun]
    rfl

theorem hundred_pushes_then_undefined_witness :
    (runCalls Stack.fresh ([4, 5].map StackCall.push) =
        .ret { stack := [4, 5] ++ List.replicate (100 - 2) 0, strcnt := 0,
               stringtable := [], sp := 2 } ∧
      compileToLLVMIR ([4, 5].map opPushi) =
        .ret ({ stack := [4, 5] ++ List.replicate (100 - 2) 0, strcnt := 0,
                stringtable := [], sp := 2 }, [])) ∧
    (runCalls Stack.fresh ((List.replicate 101 (7 : Int)).map StackCall.push) = .undefined ∧
      compileToLLVMIR ((List.replicate 101 (7 : Int)).map opPushi) = .undefined) :=
  ⟨(hundred_pushes_then_undefined [4, 5]).1 (by decide),
   (hundred_pushes_then_undefined (List.replicate 101 7)).2 (by decide)⟩

/-- C10: after any sequence of method calls that completes on a fresh stack, the string
counter is the number of `pushs` calls made and the table holds the text of the `k`-th of
them (counted from 0) under the handle `k`; a further `pushs` stores its text under the next
handle, pushes that handle, and leaves the text of every earlier handle in place; and after
`pushs x; pushs x` on a fresh stack two successive `pops` each return `x`. -/
theorem pushs_issues_fresh_handles (calls : List StackCall) (s : Stack)
    (h : runCalls Stack.fresh calls = .ret s) :
    s.strcnt = (pushedTexts calls).length ∧
    (∀ (k : Nat) (text : List Char), (pushedTexts calls)[k]? = some text →
      tableFind s.stringtable k = some text) ∧
    (∀ (text : List Char) (s1 : Stack), s.pushs text = .ret s1 →
      s1.sp = s.sp + 1 ∧
      s1.stack.getD s.sp.toNat 0 = (pushedTexts calls).length ∧
      s1.strcnt = (pushedTexts calls).length + 1 ∧
      tableFind s1.stringtable (pushedTexts calls).length = some text ∧
      ∀ (k : Nat) (old : List Char), (pushedTexts calls)[k]? = some old →
        tableFind s1.stringtable k = some old) ∧
    (∀ x : List Char,
      ((Stack.fresh.pushs x).bind fun a => (a.pushs x).bind fun b =>
        b.pops.bind fun p => p.2.pops.bind fun q => .ret (p.1, q.1)) = .ret (x, x)) := by
  have hi : s.Interned (pushedTexts calls) := by
    simpa using runCalls_interned fresh_interned h
  have hshape : s.Shaped := runCalls_shaped fresh_shaped h
  refine ⟨hi.1, hi.2, ?_, ?_⟩
  · intro text s1 h1
    have hi1 := pushs_interned hi h1
    obtain ⟨h0, hlt, rfl⟩ := push_eq_ret h1
    dsimp only at h0 hlt ⊢
    obtain ⟨hlen, _, _⟩ := hshape
    have hidx : s.sp.toNat < s.stack.length := by omega
    refine ⟨rfl, ?_, ?_, ?_, ?_⟩
    · simp [List.getD_eq_getElem?_getD, hidx, hi.1]
    · rw [hi.1]
    · have := hi1.2 (pushedTexts calls).length text (by simp)
      simpa using this
    · intro k old hk
      have hk1 : k < (pushedTexts calls).length := by
        by_contra hge
        rw [List.getElem?_eq_none (by omega)] at hk
        cases hk
      exact hi1.2 k old (by rw [List.getElem?_append_left hk1]; exact hk)
  · intro x
    simp [Stack.pushs, Stack.push, Stack.pops, Stack.pop, Stack.fresh, tableIndex, tableFind,
      tableAssign, List.replicate]

theorem pushs_issues_fresh_handles_witness :
    (2 : Int) = (pushedTexts [StackCall.pushs ['x'], StackCall.pushs ['x']]).length ∧
    (∀ (k : Nat) (text : List Char),
      (pushedTexts [StackCall.pushs ['x'], StackCall.pushs ['x']])[k]? = some text →
      tableFind [(0, ['x']), (1, ['x'])] k = some text) :=
  ⟨(pushs_issues_fresh_handles [.pushs ['x'], .pushs ['x']]
      { stack := 0 :: 1 :: List.replicate 98 0, strcnt := 2,
        stringtable := [(0, ['x']), (1, ['x'])], sp := 2 } (by decide)).1,
   (pushs_issues_fresh_handles [.pushs ['x'], .pushs ['x']]
      { stack := 0 :: 1 :: List.replicate 98 0, strcnt := 2,
        stringtable := [(0, ['x']), (1, ['x'])], sp := 2 } (by decide)).2.1⟩

/-! ### The scan on the text after the cursor computes what `parseLoop` computes -/

theorem charAt_append_cons (pre : List Char) (c : Char) (rest : List Char) :
    charAt (pre ++ c :: rest) pre.length = .ret c := by
  have h : (pre ++ c :: rest)[pre.length]? = some c := by
    rw [List.getElem?_append_right (le_refl _)]
    simp
  simp [charAt, h]

theorem charAt_length (s : List Char) : charAt s s.length = .ret (Char.ofNat 0) := by
  simp [charAt]

theorem charAt_beyond (s : List Char) (i : Nat) (h : s.length < i) :
    charAt s i = .undefined := by
  have h1 : s[i]? = none := List.getElem?_eq_none (le_of_lt h)
  have h2 : i ≠ s.length := by omega
  simp [charAt, h1, h2]

theorem parseStrLoop_beyond (s : List Char) (fuel e : Nat) (str : List Char)
    (h : s.length < e) : parseStrLoop s fuel e str = .undefined := by
  cases fuel with
  | zero => rfl
  | succ n => simp [parseStrLoop, charAt_beyond s e h]

theorem parseStrLoop_eq (fuel : Nat) (pre suf str : List Char) (h : suf.length < fuel) :
    parseStrLoop (pre ++ suf) fuel pre.length str =
      match lexStr suf str with
      | some (d, r) => .ret (d, (pre ++ suf).length - r.length)
      | none => .undefined := by
  induction fuel generalizing pre suf str with
  | zero => omega
  | succ n ih =>
    have hesc : ∀ e : Char, (if e = 'n' then str ++ [Char.ofNat 0xA]
        else if e = 't' then str ++ [Char.ofNat 0x09] else str) = str ++ escapeText e := by
      intro e
      unfold escapeText
      split
      · rfl
      · split <;> simp
    have h0 : (Char.ofNat 0 = '"') = False := by decide
    have h1 : (Char.ofNat 0 = '\\') = False := by decide
    match suf, h with
    | [], _ =>
      simp only [List.append_nil, parseStrLoop, charAt_length, bind_ret, h0, h1, if_false,
        ne_eq, not_false_eq_true, if_true, lexStr]
      exact parseStrLoop_beyond _ _ _ _ (by omega)
    | [c], _ =>
      rw [parseStrLoop, charAt_append_cons, bind_ret]
      simp only [lexStr]
      by_cases hq : c = '"'
      · simp [hq]
      · simp only [hq, if_false]
        have hlen := charAt_length (pre ++ [c])
        simp only [List.length_append, List.length_singleton] at hlen
        by_cases hb : c = '\\'
        · simp only [hb, ne_eq, not_true_eq_false, if_false]
          rw [← hb, hlen, bind_ret]
          exact parseStrLoop_beyond _ _ _ _ (by simp)
        · simp only [ne_eq, hb, not_false_eq_true, if_true]
          cases n with
          | zero => rfl
          | succ m =>
            rw [parseStrLoop, hlen, bind_ret]
            simp only [h0, h1, if_false, ne_eq, not_false_eq_true, if_true]
            exact parseStrLoop_beyond _ _ _ _ (by simp)
    | c :: e :: rest, h =>
      simp only [List.length_cons] at h
      rw [parseStrLoop, charAt_append_cons, bind_ret]
      simp only [lexStr]
      by_cases hq : c = '"'
      · simp only [hq, if_true, List.length_append, List.length_cons]
        congr 2
        omega
      · simp only [hq, if_false]
        by_cases hb : c = '\\'
        · subst hb
          simp only [ne_eq, not_true_eq_false, if_false]
          have hc := charAt_append_cons (pre ++ ['\\']) e rest
          simp only [List.length_append, List.length_singleton, List.append_assoc,
            List.singleton_append] at hc
          rw [hc, bind_ret, hesc]
          have hrec := ih (pre ++ ['\\', e]) rest (str ++ escapeText e) (by omega)
          simp only [List.length_append, List.length_cons, List.length_nil,
            List.append_assoc, List.cons_append, List.nil_append] at hrec
          simp only [List.length_append, List.length_cons]
          exact hrec
        · simp only [ne_eq, hb, not_false_eq_true, if_true]
          have hrec := ih (pre ++ [c]) (e :: rest) (str ++ [c])
            (by simp only [List.length_cons]; omega)
          simp only [List.length_append, List.length_singleton, List.append_assoc,
            List.singleton_append, List.length_cons] at hrec
          simp only [List.length_append, List.length_cons]
          exact hrec

theorem lexStr_suffix {suf str d r : List Char} (h : lexStr suf str = some (d, r)) :
    ∃ mid, suf = mid ++ r ∧ mid ≠ [] := by
  generalize hn : suf.length = n
  induction n using Nat.strong_induction_on generalizing suf str with
  | _ n ih =>
    match suf, h, hn with
    | [], h, _ => simp [lexStr] at h
    | [c], h, _ =>
      simp only [lexStr] at h
      by_cases hq : c = '"'
      · simp only [hq, if_true, Option.some.injEq, Prod.mk.injEq] at h
        exact ⟨[c], by simp [← h.2], by simp⟩
      · simp [hq] at h
    | c :: e :: rest, h, hn =>
      simp only [lexStr] at h
      by_cases hq : c = '"'
      · simp only [hq, if_true, Option.some.injEq, Prod.mk.injEq] at h
        exact ⟨[c], by simp [← h.2], by simp⟩
      · simp only [hq, if_false] at h
        by_cases hb : c = '\\'
        · simp only [hb, ne_eq, not_true_eq_false, if_false] at h
          obtain ⟨mid, hm, _⟩ := ih rest.length (by subst hn; simp; omega) h rfl
          exact ⟨c :: e :: mid, by simp [← hm], by simp⟩
        · simp only [ne_eq, hb, not_false_eq_true, if_true] at h
          obtain ⟨mid, hm, _⟩ := ih (e :: rest).length (by subst hn; simp) h rfl
          exact ⟨c :: mid, by simp [← hm], by simp⟩

theorem take_takeWhile_length (p : Char → Bool) (l : List Char) :
    l.take (l.takeWhile p).length = l.takeWhile p := by
  induction l with
  | nil => rfl
  | cons c rest ih =>
    by_cases hc : p c
    · simp [List.takeWhile_cons, hc, ih]
    · simp [List.takeWhile_cons, hc]

theorem scanRun_eq (p : Char → Bool) (hp : p (Char.ofNat 0) = false) (fuel : Nat)
    (pre suf : List Char) (h : (suf.takeWhile p).length < fuel) :
    scanRun p (pre ++ suf) fuel pre.length = .ret (pre.length + (suf.takeWhile p).length) := by
  induction fuel generalizing pre suf with
  | zero => omega
  | succ n ih =>
    cases suf with
    | nil => simp [scanRun, charAt_length, hp]
    | cons c rest =>
      rw [scanRun, charAt_append_cons, bind_ret]
      by_cases hc : p c
      · simp only [hc, if_true, List.takeWhile_cons, List.length_cons]
        simp only [List.takeWhile_cons, hc, if_true, List.length_cons] at h
        have hrec := ih (pre ++ [c]) rest (by omega)
        simp only [List.length_append, List.length_singleton, List.append_assoc,
          List.singleton_append] at hrec
        rw [hrec]
        congr 1
        omega
      · simp [hc, List.takeWhile_cons]

theorem tryParse_eq (p : Char → Bool) (hp : p (Char.ofNat 0) = false) (pre suf : List Char) :
    (scanRun p (pre ++ suf) ((pre ++ suf).length + 1) pre.length).bind (fun end_ =>
        Outcome.ret (substr (pre ++ suf) pre.length (end_ - pre.length), end_)) =
      .ret (suf.takeWhile p, pre.length + (suf.takeWhile p).length) := by
  have hlen : (suf.takeWhile p).length ≤ suf.length := (List.takeWhile_sublist p).length_le
  rw [scanRun_eq p hp _ pre suf (by simp only [List.length_append]; omega), bind_ret]
  simp [substr, take_takeWhile_length]

theorem tryParseIdent_eq (pre suf : List Char) :
    tryParseIdent (pre ++ suf) pre.length =
      .ret (suf.takeWhile isalpha, pre.length + (suf.takeWhile isalpha).length) :=
  tryParse_eq isalpha (by decide) pre suf

theorem tryParseNumber_eq (pre suf : List Char) :
    tryParseNumber (pre ++ suf) pre.length =
      .ret (suf.takeWhile isalnum, pre.length + (suf.takeWhile isalnum).length) :=
  tryParse_eq isalnum (by decide) pre suf

theorem length_takeWhile_add_dropWhile (p : Char → Bool) (l : List Char) :
    (l.takeWhile p).length + (l.dropWhile p).length = l.length := by
  rw [← List.length_append, List.takeWhile_append_dropWhile]

theorem dropWhile_suffix (p : Char → Bool) (l : List Char) :
    ∃ mid, l = mid ++ l.dropWhile p :=
  ⟨l.takeWhile p, (List.takeWhile_append_dropWhile p l).symm⟩

theorem lexStep_suffix {suf r : List Char} {x y : OP × List OP}
    (h : lexStep suf x = .ret (y, r)) : ∃ mid, suf = mid ++ r := by
  cases suf with
  | nil =>
    simp only [lexStep, Outcome.ret.injEq, Prod.mk.injEq] at h
    exact ⟨[], by simp [← h.2]⟩
  | cons c rest =>
    simp only [lexStep] at h
    split at h
    · simp only [Outcome.ret.injEq, Prod.mk.injEq] at h
      exact ⟨[c], by simp [← h.2]⟩
    · split at h
      · simp only [Outcome.ret.injEq, Prod.mk.injEq] at h
        exact ⟨[c], by simp [← h.2]⟩
      · split at h
        · split at h
          · rename_i d r1 hs
            simp only [Outcome.ret.injEq, Prod.mk.injEq] at h
            obtain ⟨mid, hm, _⟩ := lexStr_suffix hs
            exact ⟨c :: mid, by simp [← h.2, hm]⟩
          · cases h
        · split at h
          · simp only [Outcome.ret.injEq, Prod.mk.injEq] at h
            rw [← h.2]
            exact dropWhile_suffix isalpha (c :: rest)
          · split at h
            · obtain ⟨n, _, hret⟩ := bind_eq_ret h
              simp only [Outcome.ret.injEq, Prod.mk.injEq] at hret
              rw [← hret.2]
              exact dropWhile_suffix isalnum (c :: rest)
            · simp only [Outcome.ret.injEq, Prod.mk.injEq] at h
              exact ⟨[], by simp [← h.2]⟩

theorem step_eq (pre : List Char) (c : Char) (rest : List Char) (cur : OP) (prog : List OP) :
    step (pre ++ c :: rest) { current := cur, cursor := pre.length, program := prog } =
      (lexStep (c :: rest) (cur, prog)).bind fun y =>
        .ret { current := y.1.1, cursor := (pre ++ c :: rest).length - y.2.length,
               program := y.1.2 } := by
  have hlen1 : (pre ++ c :: rest).length - rest.length = pre.length + 1 := by
    simp only [List.length_append, List.length_cons]
    omega
  have hlen0 : (pre ++ c :: rest).length - (c :: rest).length = pre.length := by
    simp only [List.length_append, List.length_cons]
    omega
  have hrun : ∀ p : Char → Bool, pre.length + ((c :: rest).takeWhile p).length =
      (pre ++ c :: rest).length - ((c :: rest).dropWhile p).length := by
    intro p
    have := length_takeWhile_add_dropWhile p (c :: rest)
    simp only [List.length_append]
    omega
  simp only [step, lexStep, charAt_append_cons, bind_ret]
  by_cases h1 : c = ';'
  · simp only [h1, if_true, bind_ret, push_op]
    rw [← h1, hlen1]
  · simp only [h1, if_false]
    by_cases h2 : c = '\n' ∨ c = ' '
    · simp only [h2, if_true, bind_ret, hlen1]
    · simp only [h2, if_false]
      by_cases h3 : c = '"'
      · simp only [h3, if_true]
        have hp := parseStrLoop_eq ((pre ++ '"' :: rest).length + 2) (pre ++ ['"']) rest []
          (by simp only [List.length_append, List.length_cons]; omega)
        have hl : (pre ++ ['"']).length = pre.length + 1 := by simp
        rw [List.append_assoc, List.singleton_append, hl] at hp
        simp only [parseStr]
        rw [hp]
        cases lexStr rest [] with
        | none => rfl
        | some a => rfl
      · simp only [h3, if_false]
        by_cases h4 : isalpha c = true
        · simp only [h4, if_true, tryParseIdent_eq, bind_ret, hrun]
        · simp only [h4, if_false]
          by_cases h5 : isalnum c = true
          · simp only [h5, if_true, tryParseNumber_eq, bind_ret, hrun]
            cases stoi (List.takeWhile isalnum (c :: rest)) with
            | ret n => rfl
            | throws e => rfl
            | undefined => rfl
          · simp only [h5, if_false, bind_ret, hlen0]
            simp

theorem parseLoop_eq_lexLoop (fuel : Nat) (pre suf : List Char) (cur : OP) (prog : List OP) :
    parseLoop (pre ++ suf) fuel { current := cur, cursor := pre.length, program := prog } =
      (lexLoop fuel suf (cur, prog)).map (finalState (pre ++ suf).length) := by
  induction fuel generalizing pre suf cur prog with
  | zero => rfl
  | succ n ih =>
    cases suf with
    | nil => simp [parseLoop, lexLoop, finalState]
    | cons c rest =>
      have hlt : pre.length < (pre ++ c :: rest).length := by simp
      simp only [parseLoop, hlt, if_true, lexLoop, step_eq]
      rw [if_neg (by simp)]
      cases hs : lexStep (c :: rest) (cur, prog) with
      | ret a =>
        obtain ⟨y, r⟩ := a
        obtain ⟨mid, hm⟩ := lexStep_suffix hs
        have hcur : (pre ++ c :: rest).length - r.length = (pre ++ mid).length := by
          rw [hm]
          simp only [List.length_append]
          omega
        have hsrc : pre ++ c :: rest = (pre ++ mid) ++ r := by
          rw [hm, List.append_assoc]
        simp only [bind_ret, hcur]
        rw [hsrc]
        exact ih (pre ++ mid) r y.1 y.2
      | throws e => simp [finalState]
      | undefined => simp [finalState]

theorem parseProgram_eq_lexLoop (source : List Char) (program : List OP) (fuel : Nat) :
    parseProgram source program fuel = (lexLoop fuel source ({}, program)).map finalProgram := by
  have h := parseLoop_eq_lexLoop fuel [] source {} program
  simp only [List.nil_append, List.length_nil] at h
  unfold parseProgram
  rw [h]
  cases lexLoop fuel source ({}, program) with
  | none => rfl
  | some o =>
    cases o with
    | ret y => rfl
    | throws e => rfl
    | undefined => rfl

/-! ### The scan loop on the text after the cursor -/

theorem lexLoop_succ {fuel : Nat} {suf : List Char} {x : OP × List OP}
    {r : Outcome (OP × List OP)} (h : lexLoop fuel suf x = some r) :
    lexLoop (fuel + 1) suf x = some r := by
  induction fuel generalizing suf x with
  | zero => simp [lexLoop] at h
  | succ n ih =>
    rw [lexLoop] at h ⊢
    split
    · rename_i hnil
      simpa [hnil] using h
    · rename_i hnil
      simp only [hnil, if_false] at h
      cases hs : lexStep suf x with
      | ret a =>
        simp only [hs] at h ⊢
        exact ih h
      | throws e => simpa [hs] using h
      | undefined => simpa [hs] using h

theorem lexLoop_mono {fuel : Nat} {suf : List Char} {x : OP × List OP}
    {r : Outcome (OP × List OP)} (h : lexLoop fuel suf x = some r) (k : Nat) :
    lexLoop (fuel + k) suf x = some r := by
  induction k with
  | zero => exact h
  | succ k ih => exact lexLoop_succ ih

theorem lexLoop_le {fuel fuel1 : Nat} {suf : List Char} {x : OP × List OP}
    {r : Outcome (OP × List OP)} (h : lexLoop fuel suf x = some r) (hle : fuel ≤ fuel1) :
    lexLoop fuel1 suf x = some r := by
  obtain ⟨k, rfl⟩ := Nat.exists_eq_add_of_le hle
  exact lexLoop_mono h k

theorem lexStep_progress {c : Char} {rest r : List Char} {x y : OP × List OP}
    (h : lexStep (c :: rest) x = .ret (y, r)) :
    r.length < (c :: rest).length ∨ (r = c :: rest ∧ y = x) := by
  simp only [lexStep] at h
  split at h
  · simp only [Outcome.ret.injEq, Prod.mk.injEq] at h
    left
    simp [← h.2]
  · split at h
    · simp only [Outcome.ret.injEq, Prod.mk.injEq] at h
      left
      simp [← h.2]
    · split at h
      · split at h
        · rename_i d r1 hs
          simp only [Outcome.ret.injEq, Prod.mk.injEq] at h
          obtain ⟨mid, hm, hne⟩ := lexStr_suffix hs
          left
          rw [← h.2, List.length_cons, hm, List.length_append]
          omega
        · cases h
      · split at h
        · rename_i ha
          simp only [Outcome.ret.injEq, Prod.mk.injEq] at h
          left
          rw [← h.2, List.dropWhile_cons_of_pos ha]
          have := (List.dropWhile_sublist isalpha (l := rest)).length_le
          simp only [List.length_cons]
          omega
        · split at h
          · rename_i ha
            obtain ⟨n, _, hret⟩ := bind_eq_ret h
            simp only [Outcome.ret.injEq, Prod.mk.injEq] at hret
            left
            rw [← hret.2, List.dropWhile_cons_of_pos ha]
            have := (List.dropWhile_sublist isalnum (l := rest)).length_le
            simp only [List.length_cons]
            omega
          · simp only [Outcome.ret.injEq, Prod.mk.injEq] at h
            right
            exact ⟨h.2.symm, h.1.symm⟩

/-- A result of the scan loop, whatever the fuel, is already reached with as many
iterations as the text has bytes, plus one. -/
theorem lexLoop_canonical {fuel : Nat} {suf : List Char} {x : OP × List OP}
    {r : Outcome (OP × List OP)} (h : lexLoop fuel suf x = some r) :
    lexLoop (suf.length + 1) suf x = some r := by
  induction fuel generalizing suf x with
  | zero => simp [lexLoop] at h
  | succ n ih =>
    cases suf with
    | nil => simpa [lexLoop] using h
    | cons c rest =>
      rw [lexLoop] at h ⊢
      simp only [List.cons_ne_nil, if_false] at h ⊢
      cases hs : lexStep (c :: rest) x with
      | ret a =>
        obtain ⟨y, r1⟩ := a
        simp only [hs] at h ⊢
        rcases lexStep_progress hs with hlt | ⟨hr, hy⟩
        · exact lexLoop_le (ih h) (by simp only [List.length_cons] at hlt ⊢; omega)
        · subst hr
          subst hy
          have := ih h
          rw [lexLoop] at this
          simp only [List.cons_ne_nil, if_false, hs] at this
          exact this
      | throws e => simpa [hs] using h
      | undefined => simpa [hs] using h

/-- An iteration that changes nothing is repeated for ever. -/
theorem lexLoop_stuck {suf : List Char} {x : OP × List OP} (hne : suf ≠ [])
    (hs : lexStep suf x = .ret (x, suf)) (fuel : Nat) : lexLoop fuel suf x = none := by
  induction fuel with
  | zero => rfl
  | succ n ih =>
    rw [lexLoop]
    simp only [hne, if_false, hs]
    exact ih

theorem lexLoop_nil (fuel : Nat) (x : OP × List OP) :
    lexLoop (fuel + 1) [] x = some (.ret x) := by
  simp [lexLoop]

theorem lexLoop_step {fuel : Nat} {suf r : List Char} {x y : OP × List OP} (hne : suf ≠ [])
    (hs : lexStep suf x = .ret (y, r)) : lexLoop (fuel + 1) suf x = lexLoop fuel r y := by
  rw [lexLoop]
  simp only [hne, if_false, hs]

/-! ### Tokens -/

theorem startsOutside_cons {p : Char → Bool} {c : Char} (l : List Char) (h : p c = false) :
    StartsOutside p (c :: l) := by
  intro d hd
  simp only [List.head?_cons, Option.some.injEq] at hd
  rw [← hd]
  exact h

theorem startsOutside_nil (p : Char → Bool) : StartsOutside p [] := by
  intro d hd
  simp at hd

theorem startsOutside_append {p : Char → Bool} {a b : List Char}
    (ha : ∀ c ∈ a, p c = false) (hb : StartsOutside p b) : StartsOutside p (a ++ b) := by
  cases a with
  | nil => simpa using hb
  | cons c rest => exact startsOutside_cons _ (ha c (by simp))

theorem takeWhile_run {p : Char → Bool} {run rest : List Char} (hrun : ∀ c ∈ run, p c = true)
    (hrest : StartsOutside p rest) :
    (run ++ rest).takeWhile p = run ∧ (run ++ rest).dropWhile p = rest := by
  have htake : rest.takeWhile p = [] ∧ rest.dropWhile p = rest := by
    cases rest with
    | nil => simp
    | cons d l =>
      have hd : p d = false := hrest d rfl
      simp [List.takeWhile_cons, List.dropWhile_cons, hd]
  constructor
  · rw [List.takeWhile_append_of_pos hrun, htake.1, List.append_nil]
  · rw [List.dropWhile_append_of_pos hrun, htake.2]

theorem blank_not_alnum {c : Char} (h : c = ' ' ∨ c = '\n') : isalnum c = false := by
  rcases h with rfl | rfl <;> decide

theorem blank_not_alpha {c : Char} (h : c = ' ' ∨ c = '\n') : isalpha c = false := by
  rcases h with rfl | rfl <;> decide

theorem digit_not_alpha {c : Char} (h : isdigit c = true) : isalpha c = false := by
  simp only [isdigit, isalpha, Bool.and_eq_true, decide_eq_true_eq, Bool.or_eq_false_iff,
    Bool.and_eq_false_iff, decide_eq_false_iff_not] at h ⊢
  omega

theorem digit_alnum {c : Char} (h : isdigit c = true) : isalnum c = true := by
  simp [isalnum, h]

theorem alpha_alnum {c : Char} (h : isalpha c = true) : isalnum c = true := by
  simp [isalnum, h]

theorem lexStep_blank (c : Char) (rest : List Char) (x : OP × List OP)
    (h : c = ' ' ∨ c = '\n') : lexStep (c :: rest) x = .ret (x, rest) := by
  rcases h with rfl | rfl <;> simp [lexStep]

theorem lex_blank {ws : List Char} (hws : Blank ws) (fuel : Nat) (rest : List Char)
    (x : OP × List OP) : lexLoop (fuel + ws.length) (ws ++ rest) x = lexLoop fuel rest x := by
  induction ws with
  | nil => rfl
  | cons c l ih =>
    have hc := hws c (by simp)
    have hl : Blank l := fun d hd => hws d (by simp [hd])
    rw [List.length_cons, ← Nat.add_assoc]
    rw [List.cons_append, lexLoop_step (by simp) (lexStep_blank c _ x hc)]
    exact ih hl

theorem lex_terminator (fuel : Nat) (rest : List Char) (cur : OP) (prog : List OP) :
    lexLoop (fuel + 1) (';' :: rest) (cur, prog) = lexLoop fuel rest ({}, prog ++ [cur]) :=
  lexLoop_step (by simp) (by simp [lexStep])

theorem lex_ident {run rest : List Char} (hne : run ≠ []) (hrun : ∀ c ∈ run, isalpha c = true)
    (hrest : StartsOutside isalpha rest) (fuel : Nat) (cur : OP) (prog : List OP) :
    lexLoop (fuel + 1) (run ++ rest) (cur, prog) =
      lexLoop fuel rest (applyIdent cur run, prog) := by
  obtain ⟨htake, hdrop⟩ := takeWhile_run hrun hrest
  cases run with
  | nil => exact absurd rfl hne
  | cons c l =>
    have hc : isalpha c = true := hrun c (by simp)
    have h1 : c ≠ ';' := by rintro rfl; revert hc; decide
    have h2 : ¬ (c = '\n' ∨ c = ' ') := by
      rintro (rfl | rfl) <;> revert hc <;> decide
    have h3 : c ≠ '"' := by rintro rfl; revert hc; decide
    rw [List.cons_append] at htake hdrop ⊢
    refine lexLoop_step (by simp) ?_
    simp only [lexStep, h1, h2, h3, hc, if_false, if_true, htake, hdrop]

theorem decimalValue_nonneg_cast (ds : List Char) : (0 : Int) ≤ (decimalValue ds : Int) :=
  Int.natCast_nonneg _

theorem stoi_digits {ds : List Char} (hne : ds ≠ []) (hds : ∀ c ∈ ds, isdigit c = true)
    (hmax : decimalValue ds ≤ 2147483647) : stoi ds = .ret (decimalValue ds : Int) := by
  cases ds with
  | nil => exact absurd rfl hne
  | cons c l =>
    have hc : isdigit c = true := hds c (by simp)
    have hsp : isspace c = false := by
      simp only [isdigit, isspace, Bool.and_eq_true, decide_eq_true_eq, Bool.or_eq_false_iff,
        Bool.and_eq_false_iff, decide_eq_false_iff_not] at hc ⊢
      omega
    have hm : c ≠ '-' := by rintro rfl; revert hc; decide
    have hp : c ≠ '+' := by rintro rfl; revert hc; decide
    have htake : (c :: l).takeWhile isdigit = c :: l := by
      have := @List.takeWhile_append_of_pos Char isdigit (c :: l) [] hds
      simpa using this
    have hrange : (-2147483648 : Int) ≤ (decimalValue (c :: l) : Int) ∧
        (decimalValue (c :: l) : Int) ≤ 2147483647 := by
      constructor
      · have := decimalValue_nonneg_cast (c :: l)
        omega
      · exact_mod_cast hmax
    have hdw : (c :: l).dropWhile isspace = c :: l := by
      simp [List.dropWhile_cons, hsp]
    have hne1 : ¬ (some c = some '-') := by simpa using hm
    have hne2 : ¬ (some c = some '+') := by simpa using hp
    unfold stoi
    simp only [hdw, List.head?_cons, hne1, hne2, or_self, if_false, htake, List.cons_ne_nil,
      hrange, and_self, if_true]

theorem lex_number {ds rest : List Char} (hne : ds ≠ []) (hds : ∀ c ∈ ds, isdigit c = true)
    (hmax : decimalValue ds ≤ 2147483647) (hrest : StartsOutside isalnum rest) (fuel : Nat)
    (cur : OP) (prog : List OP) :
    lexLoop (fuel + 1) (ds ++ rest) (cur, prog) =
      lexLoop fuel rest ({ cur with operand := decimalValue ds }, prog) := by
  obtain ⟨htake, hdrop⟩ := takeWhile_run (fun c hc => digit_alnum (hds c hc)) hrest
  have hstoi := stoi_digits hne hds hmax
  cases ds with
  | nil => exact absurd rfl hne
  | cons c l =>
    have hc : isdigit c = true := hds c (by simp)
    have ha : isalpha c = false := digit_not_alpha hc
    have hn : isalnum c = true := digit_alnum hc
    have h1 : c ≠ ';' := by rintro rfl; revert hc; decide
    have h2 : ¬ (c = '\n' ∨ c = ' ') := by
      rintro (rfl | rfl) <;> revert hc <;> decide
    have h3 : c ≠ '"' := by rintro rfl; revert hc; decide
    rw [List.cons_append] at htake hdrop ⊢
    refine lexLoop_step (by simp) ?_
    simp only [lexStep, h1, h2, h3, ha, hn, if_false, if_true, htake, hdrop, hstoi, bind_ret]
    simp

theorem lexStr_quote (l str : List Char) : lexStr ('"' :: l) str = some (str, l) := by
  cases l <;> simp [lexStr]

theorem lexStr_plain {c : Char} (hq : c ≠ '"') (hb : c ≠ '\\') {l : List Char} (hl : l ≠ [])
    (str : List Char) : lexStr (c :: l) str = lexStr l (str ++ [c]) := by
  cases l with
  | nil => exact absurd rfl hl
  | cons e r => simp [lexStr, hq, hb]

theorem lexStr_escape (e : Char) (l str : List Char) :
    lexStr ('\\' :: e :: l) str = lexStr l (str ++ escapeText e) := by
  simp [lexStr]

theorem escapeText_eq_decoded (e : Char) : escapeText e = (StrItem.escape e).decoded := rfl

theorem lexStr_body {body : List StrItem} (hbody : ∀ item ∈ body, item.Valid)
    (rest str : List Char) :
    lexStr (bodyText body ++ '"' :: rest) str = some (str ++ bodyDecoded body, rest) := by
  induction body generalizing str with
  | nil => simp [bodyText, bodyDecoded, lexStr_quote]
  | cons item more ih =>
    have hmore : ∀ i ∈ more, i.Valid := fun i hi => hbody i (by simp [hi])
    have hitem := hbody item (by simp)
    cases item with
    | plain c =>
      simp only [StrItem.Valid] at hitem
      simp only [bodyText, StrItem.text, bodyDecoded, StrItem.decoded, List.singleton_append,
        List.cons_append, List.nil_append]
      rw [lexStr_plain hitem.1 hitem.2 (by simp), ih hmore]
      simp
    | escape e =>
      simp only [bodyText, StrItem.text, bodyDecoded, List.cons_append, List.nil_append]
      rw [lexStr_escape, ih hmore, escapeText_eq_decoded]
      simp

theorem lex_string {body : List StrItem} (hbody : ∀ item ∈ body, item.Valid) (fuel : Nat)
    (rest : List Char) (cur : OP) (prog : List OP) :
    lexLoop (fuel + 1) ('"' :: (bodyText body ++ '"' :: rest)) (cur, prog) =
      lexLoop fuel rest ({ cur with soperand := bodyDecoded body }, prog) := by
  refine lexLoop_step (by simp) ?_
  have h := lexStr_body hbody rest []
  simp only [List.nil_append] at h
  have h1 : ('"' : Char) ≠ ';' := by decide
  have h2 : ¬ (('"' : Char) = '\n' ∨ ('"' : Char) = ' ') := by decide
  simp only [lexStep, h1, h2, if_false, if_true, h]

theorem applyIdent_pushi (cur : OP) :
    applyIdent cur "pushi".toList = { cur with type := .PUSHI } := by
  simp [applyIdent]

theorem applyIdent_pushs (cur : OP) :
    applyIdent cur "pushs".toList = { cur with type := .PUSHS } := by
  simp [applyIdent]

theorem applyIdent_puts (cur : OP) : applyIdent cur "puts".toList = INTRINSIC_PUTS := by
  simp [applyIdent]

theorem applyIdent_exit (cur : OP) : applyIdent cur "exit".toList = INTRINSIC_EXIT := by
  simp [applyIdent]

theorem keyword_alpha (st : Stmt) : st.keyword ≠ [] ∧ ∀ c ∈ st.keyword, isalpha c = true := by
  cases st <;> simp only [Stmt.keyword] <;> exact ⟨by decide, by decide⟩

theorem blank_startsOutside_alpha {ws rest : List Char} (hws : Blank ws)
    (hrest : StartsOutside isalpha rest) : StartsOutside isalpha (ws ++ rest) :=
  startsOutside_append (fun c hc => blank_not_alpha (hws c hc)) hrest

theorem blank_startsOutside_alnum {ws rest : List Char} (hws : Blank ws)
    (hrest : StartsOutside isalnum rest) : StartsOutside isalnum (ws ++ rest) :=
  startsOutside_append (fun c hc => blank_not_alnum (hws c hc)) hrest

/-- The scan of one well-formed statement, from a reset accumulator: its instruction is
appended and the accumulator is reset again, in at most as many iterations as the statement
has bytes. -/
theorem lex_statement (s : Statement) (hs : s.Valid) :
    ∃ k, k ≤ s.text.length ∧ ∀ (fuel : Nat) (rest : List Char) (prog : List OP),
      lexLoop (fuel + k) (s.text ++ rest) ({}, prog) =
        lexLoop fuel rest ({}, prog ++ [s.stmt.op]) := by
  obtain ⟨lead, st, gap, trail⟩ := s
  obtain ⟨hst, hlead, hgap, htrail⟩ := hs
  simp only at hst hlead hgap htrail
  obtain ⟨hkne, hkw⟩ := keyword_alpha st
  have hsemi : ∀ rest : List Char, StartsOutside isalnum (trail ++ ';' :: rest) := fun rest =>
    blank_startsOutside_alnum htrail (startsOutside_cons _ (by decide))
  have hsemi1 : ∀ rest : List Char, StartsOutside isalpha (trail ++ ';' :: rest) := fun rest =>
    blank_startsOutside_alpha htrail (startsOutside_cons _ (by decide))
  cases st with
  | pushi ds =>
    obtain ⟨hne, hds, hmax⟩ := hst
    refine ⟨lead.length + (1 + (gap.length + (1 + (trail.length + 1)))), ?_, ?_⟩
    · have : 1 ≤ ds.length := List.length_pos.mpr hne
      simp only [Statement.text, Stmt.keyword, Stmt.literal, List.length_append,
        List.length_singleton, String.toList, List.length_cons, List.length_nil]
      omega
    · intro fuel rest prog
      have e : fuel + (lead.length + (1 + (gap.length + (1 + (trail.length + 1))))) =
          ((((fuel + 1 + trail.length) + 1) + gap.length) + 1) + lead.length := by omega
      have t : ({ lead := lead, stmt := Stmt.pushi ds, gap := gap, trail := trail } :
          Statement).text ++ rest =
          lead ++ ((Stmt.pushi ds).keyword ++ (gap ++ (ds ++ (trail ++ ';' :: rest)))) := by
        simp [Statement.text, Stmt.literal]
      rw [e, t, lex_blank hlead,
        lex_ident hkne hkw (blank_startsOutside_alpha hgap (startsOutside_append
          (fun c hc => digit_not_alpha (hds c hc)) (hsemi1 rest))),
        lex_blank hgap, lex_number hne hds hmax (hsemi rest), lex_blank htrail, lex_terminator]
      rfl
  | pushs body =>
    refine ⟨lead.length + (1 + (gap.length + (1 + (trail.length + 1)))), ?_, ?_⟩
    · simp only [Statement.text, Stmt.keyword, Stmt.literal, List.length_append,
        List.length_singleton, String.toList, List.length_cons, List.length_nil]
      omega
    · intro fuel rest prog
      have e : fuel + (lead.length + (1 + (gap.length + (1 + (trail.length + 1))))) =
          ((((fuel + 1 + trail.length) + 1) + gap.length) + 1) + lead.length := by omega
      have t : ({ lead := lead, stmt := Stmt.pushs body, gap := gap, trail := trail } :
          Statement).text ++ rest =
          lead ++ ((Stmt.pushs body).keyword ++
            (gap ++ ('"' :: (bodyText body ++ '"' :: (trail ++ ';' :: rest))))) := by
        simp [Statement.text, Stmt.literal]
      rw [e, t, lex_blank hlead,
        lex_ident hkne hkw (blank_startsOutside_alpha hgap (startsOutside_cons _ (by decide))),
        lex_blank hgap, lex_string hst, lex_blank htrail, lex_terminator]
      rfl
  | puts =>
    refine ⟨lead.length + (1 + (gap.length + (trail.length + 1))), ?_, ?_⟩
    · simp only [Statement.text, Stmt.keyword, Stmt.literal, List.length_append,
        List.length_singleton, String.toList, List.length_cons, List.length_nil]
      omega
    · intro fuel rest prog
      have e : fuel + (lead.length + (1 + (gap.length + (trail.length + 1)))) =
          (((fuel + 1 + trail.length) + gap.length) + 1) + lead.length := by omega
      have t : ({ lead := lead, stmt := Stmt.puts, gap := gap, trail := trail } :
          Statement).text ++ rest =
          lead ++ (Stmt.puts.keyword ++ (gap ++ (trail ++ ';' :: rest))) := by
        simp [Statement.text, Stmt.literal]
      rw [e, t, lex_blank hlead,
        lex_ident hkne hkw (blank_startsOutside_alpha hgap (hsemi1 rest)),
        lex_blank hgap, lex_blank htrail, lex_terminator]
      rfl
  | exit =>
    refine ⟨lead.length + (1 + (gap.length + (trail.length + 1))), ?_, ?_⟩
    · simp only [Statement.text, Stmt.keyword, Stmt.literal, List.length_append,
        List.length_singleton, String.toList, List.length_cons, List.length_nil]
      omega
    · intro fuel rest prog
      have e : fuel + (lead.length + (1 + (gap.length + (trail.length + 1)))) =
          (((fuel + 1 + trail.length) + gap.length) + 1) + lead.length := by omega
      have t : ({ lead := lead, stmt := Stmt.exit, gap := gap, trail := trail } :
          Statement).text ++ rest =
          lead ++ (Stmt.exit.keyword ++ (gap ++ (trail ++ ';' :: rest))) := by
        simp [Statement.text, Stmt.literal]
      rw [e, t, lex_blank hlead,
        lex_ident hkne hkw (blank_startsOutside_alpha hgap (hsemi1 rest)),
        lex_blank hgap, lex_blank htrail, lex_terminator]
      rfl


theorem lex_render (stmts : List Statement) (hvalid : ∀ s ∈ stmts, s.Valid) :
    ∃ k, k ≤ (render stmts).length ∧ ∀ (fuel : Nat) (rest : List Char) (prog : List OP),
      lexLoop (fuel + k) (render stmts ++ rest) ({}, prog) =
        lexLoop fuel rest ({}, prog ++ stmts.map fun s => s.stmt.op) := by
  induction stmts with
  | nil => exact ⟨0, by simp [render], by simp [render]⟩
  | cons s more ih =>
    obtain ⟨k1, hk1, h1⟩ := lex_statement s (hvalid s (by simp))
    obtain ⟨k2, hk2, h2⟩ := ih (fun t ht => hvalid t (by simp [ht]))
    refine ⟨k2 + k1, ?_, ?_⟩
    · simp only [render, List.length_append]
      omega
    · intro fuel rest prog
      rw [← Nat.add_assoc, render, List.append_assoc, h1, h2]
      simp

/-- Every source text of the grammar is parsed into the instructions of its statements, in
order, whenever the fuel exceeds the length of the text. -/
theorem parse_render (stmts : List Statement) (tail : List Char) (program : List OP)
    (fuel : Nat) (hvalid : ∀ s ∈ stmts, s.Valid) (htail : Blank tail)
    (hfuel : (render stmts ++ tail).length < fuel) :
    parseProgram (render stmts ++ tail) program fuel =
      some (.ret (program ++ stmts.map fun s => s.stmt.op)) := by
  obtain ⟨k, hk, h⟩ := lex_render stmts hvalid
  have hrun : lexLoop (0 + 1 + tail.length + k) (render stmts ++ tail) ({}, program) =
      some (.ret ({}, program ++ stmts.map fun s => s.stmt.op)) := by
    have := lex_blank htail (0 + 1) [] ({}, program ++ stmts.map fun s => s.stmt.op)
    rw [List.append_nil] at this
    rw [h, this]
    exact lexLoop_nil 0 _
  rw [parseProgram_eq_lexLoop, lexLoop_le hrun (by simp only [List.length_append] at hfuel; omega)]
  rfl

/-! ### Claims about `parseProgram` -/

/-- C3: for every source text in which the cursor is on an opening quote whose literal is
terminated (the body is a sequence of pieces, each a character other than `"` and the
backslash or a backslash pair, and is followed by a quote), `parseStr` returns the body
decoded piece by piece (`\n` the byte 0x0A, `\t` the byte 0x09, any other pair nothing,
any other character itself) and the position just after the closing quote; and
`pushs "a\nb"; puts;` resolves to the three bytes a, newline, b. -/
theorem parseStr_decodes (pre rest : List Char) (body : List StrItem)
    (hbody : ∀ item ∈ body, item.Valid) :
    parseStr (pre ++ '"' :: (bodyText body ++ '"' :: rest)) pre.length =
      .ret (bodyDecoded body, pre.length + 1 + (bodyText body).length + 1) ∧
    resolve "pushs \"a\\nb\"; puts;".toList 30 =
      some (.ret [Call.printf ['a', Char.ofNat 0x0A, 'b']]) := by
  constructor
  · have hp := parseStrLoop_eq ((pre ++ '"' :: (bodyText body ++ '"' :: rest)).length + 2)
      (pre ++ ['"']) (bodyText body ++ '"' :: rest) []
      (by simp only [List.length_append, List.length_cons]; omega)
    have hl : (pre ++ ['"']).length = pre.length + 1 := by simp
    rw [List.append_assoc, List.singleton_append, hl, lexStr_body hbody] at hp
    rw [parseStr, hp]
    simp only [List.nil_append, List.length_append, List.length_cons, Outcome.ret.injEq,
      Prod.mk.injEq, true_and]
    omega
  · decide

theorem parseStr_decodes_witness :
    parseStr "pushs \"a\\nb\\\"c\\\\\"; puts;".toList 6 = .ret (['a', '\n', 'b', 'c'], 17) :=
  (parseStr_decodes "pushs ".toList "; puts;".toList
    [.plain 'a', .escape 'n', .plain 'b', .escape '"', .plain 'c', .escape '\\']
    (by
      intro item hitem
      simp only [List.mem_cons, List.mem_singleton, List.not_mem_nil, or_false] at hitem
      rcases hitem with rfl | rfl | rfl | rfl | rfl | rfl <;> simp [StrItem.Valid])).1

/-- C5 fails on the code at the source text `-` (and at any text that starts with it): the
`default` branch of the `switch` neither changes the state nor moves the cursor, so the
loop repeats the same iteration for ever and `parseProgram` never returns. -/
theorem stray_byte_never_returns :
    step "-".toList { current := {}, cursor := 0, program := [] } =
      .ret { current := {}, cursor := 0, program := [] } ∧
    ∀ (rest : List Char) (program : List OP) (fuel : Nat),
      parseProgram ('-' :: rest) program fuel = none := by
  refine ⟨by decide, ?_⟩
  intro rest program fuel
  rw [parseProgram_eq_lexLoop, lexLoop_stuck (by simp) (by simp [lexStep, isalpha, isalnum, isdigit])]
  rfl


/-! ### Parse and replay -/

theorem bodyDecoded_plain (s : List Char) : bodyDecoded (s.map StrItem.plain) = s := by
  induction s with
  | nil => rfl
  | cons c rest ih => simp [bodyDecoded, StrItem.decoded, ih]

theorem pairStatements_valid (ps : List PushCall) (hvalid : ∀ p ∈ ps, p.Valid) :
    ∀ s ∈ pairStatements ps, s.Valid := by
  induction ps with
  | nil => simp [pairStatements]
  | cons p rest ih =>
    obtain ⟨hlit, hpush, hcall⟩ := hvalid p (by simp)
    intro s hs
    simp only [pairStatements, List.mem_cons] at hs
    rcases hs with rfl | rfl | hs
    · refine ⟨?_, hpush⟩
      cases hl : p.literal with
      | int ds =>
        rw [hl] at hlit
        exact hlit
      | text t =>
        rw [hl] at hlit
        intro item hitem
        simp only [List.mem_map] at hitem
        obtain ⟨c, hc, rfl⟩ := hitem
        exact hlit c hc
    · refine ⟨?_, hcall⟩
      cases p.literal <;> exact trivial
    · exact ih (fun q hq => hvalid q (by simp [hq])) s hs

theorem replay_pairs (ps : List PushCall) (s : Stack) (calls : List Call)
    (hlen : s.stack.length = 100) (hsp : s.sp = 0) :
    ∃ s1, compileLoop ((pairStatements ps).map fun t => t.stmt.op) (s, calls) =
        .ret (s1, calls ++ ps.map fun p => p.literal.emitted) ∧
      s1.stack.length = 100 ∧ s1.sp = 0 := by
  induction ps generalizing s calls with
  | nil => exact ⟨s, by simp [pairStatements, compileLoop], hlen, hsp⟩
  | cons p rest ih =>
    have hpos : 0 < s.stack.length := by omega
    cases hl : p.literal with
    | int ds =>
      obtain ⟨s1, h1, hlen1, hsp1⟩ := ih
        { s with stack := s.stack.set 0 (decimalValue ds), sp := 0 }
        (calls ++ [Call.exit (decimalValue ds)]) (by simpa using hlen) rfl
      refine ⟨s1, ?_, hlen1, hsp1⟩
      simp only [pairStatements, List.map_cons, Spacing.around, hl, Literal.push,
        Literal.intrinsic, Literal.emitted, Stmt.op, compileLoop, compileOp, Stack.push, hsp,
        Stack.pop, ENUMI, le_refl, zero_lt_one, Int.reduceLT, and_self, if_true, bind_ret,
        Int.toNat_zero, zero_add, sub_self, List.getD_eq_getElem?_getD,
        List.getElem?_set_self hpos, Option.getD_some, List.append_assoc,
        List.singleton_append]
      simpa using h1
    | text t =>
      obtain ⟨s1, h1, hlen1, hsp1⟩ := ih
        { stack := s.stack.set 0 s.strcnt, strcnt := s.strcnt + 1,
          stringtable := tableAssign s.stringtable s.strcnt t, sp := 0 }
        (calls ++ [Call.printf (c_str t)]) (by simpa using hlen) rfl
      refine ⟨s1, ?_, hlen1, hsp1⟩
      have hfind := tableFind_assign_same s.stringtable s.strcnt t
      simp only [pairStatements, List.map_cons, Spacing.around, hl, Literal.push,
        Literal.intrinsic, Literal.emitted, Stmt.op, compileLoop, compileOp, Stack.pushs,
        Stack.push, hsp, Stack.pops, Stack.pop, ENUMI, le_refl, zero_lt_one, Int.reduceLT,
        and_self, if_true, bind_ret, Int.toNat_zero, zero_add, sub_self,
        List.getD_eq_getElem?_getD, List.getElem?_set_self hpos, Option.getD_some,
        List.append_assoc, List.singleton_append, bodyDecoded_plain, tableIndex, hfind,
        one_ne_zero, if_false]
      simpa using h1

theorem c_str_of_nulFree {s : List Char} (h : Char.ofNat 0 ∉ s) : c_str s = s := by
  unfold c_str
  rw [List.takeWhile_eq_self_iff]
  intro c hc
  have hne : c ≠ Char.ofNat 0 := by
    rintro rfl
    exact h hc
  simpa using hne

theorem emitted_of_nulFree {l : Literal} (h : l.NulFree) : l.emitted = l.call := by
  cases l with
  | int ds => rfl
  | text s =>
    have hs : Char.ofNat 0 ∉ s := h
    simp only [Literal.emitted, Literal.call, c_str_of_nulFree hs]

/-- C1, as stated, fails: the text `a`, NUL, `b` has no `"` and no backslash, and
`pushs "<s>"; puts;` with that text resolves `puts` with `a` alone.  The popped text reaches
`CreateGlobalString` as `pop.c_str()`, which ends at the first NUL byte. -/
theorem nul_byte_cuts_resolved_text :
    (∀ c ∈ ['a', Char.ofNat 0, 'b'], c ≠ '"' ∧ c ≠ '\\') ∧
    resolve ("pushs \"a".toList ++ Char.ofNat 0 :: "b\"; puts;".toList) 20 =
      some (.ret [Call.printf ['a']]) ∧
    resolve ("pushs \"a".toList ++ Char.ofNat 0 :: "b\"; puts;".toList) 20 ≠
      some (.ret [Call.printf ['a', Char.ofNat 0, 'b']]) := by
  refine ⟨by decide, by decide, by decide⟩

/-- C1, amended: for every sequence of well-formed pairs `pushi <n>; exit;` (n a run of
decimal digits whose value fits a 32-bit `int`) and `pushs "<s>"; puts;` (s without `"` and
backslash), written with any white space, parsing the text into an empty program and
replaying the result on a fresh stack returns, given fuel beyond the length of the text, and
the `k`-th call emitted has as its argument the literal of the `k`-th pair: the value of `n`
for `exit`, and for `puts` the text `s` up to its first NUL byte, which is exactly `s` when
`s` has no NUL byte. -/
theorem parse_replay_round_trip (ps : List PushCall) (tail : List Char) (fuel : Nat)
    (hvalid : ∀ p ∈ ps, p.Valid) (htail : Blank tail)
    (hfuel : (render (pairStatements ps) ++ tail).length < fuel) :
    resolve (render (pairStatements ps) ++ tail) fuel =
      some (.ret (ps.map fun p => p.literal.emitted)) ∧
    ((∀ p ∈ ps, p.literal.NulFree) →
      resolve (render (pairStatements ps) ++ tail) fuel =
        some (.ret (ps.map fun p => p.literal.call))) := by
  have hparse := parse_render (pairStatements ps) tail [] fuel (pairStatements_valid ps hvalid)
    htail hfuel
  obtain ⟨s1, h1, _, _⟩ := replay_pairs ps Stack.fresh [] (by simp [Stack.fresh]) rfl
  have hres : resolve (render (pairStatements ps) ++ tail) fuel =
      some (.ret (ps.map fun p => p.literal.emitted)) := by
    simp only [resolve, hparse, List.nil_append, bind_ret, compileToLLVMIR, h1]
  refine ⟨hres, ?_⟩
  intro hnul
  rw [hres]
  have hmap : (ps.map fun p => p.literal.emitted) = ps.map fun p => p.literal.call :=
    List.map_congr_left fun p hp => emitted_of_nulFree (hnul p hp)
  rw [hmap]

theorem parse_replay_round_trip_witness :
    resolve "pushi 42; exit;".toList 16 = some (.ret [Call.exit 42]) ∧
    resolve "pushs \"hi\"; puts;".toList 18 = some (.ret [Call.printf ['h', 'i']]) ∧
    resolve "pushs \"hi\"; puts;\npushi 42; exit; pushi 007;exit;".toList 50 =
      some (.ret [Call.printf ['h', 'i'], Call.exit 42, Call.exit 7]) ∧
    resolve ("pushs \"a".toList ++ Char.ofNat 0 :: "b\"; puts;".toList) 20 =
      some (.ret [Call.printf ['a']]) :=
  ⟨(parse_replay_round_trip [⟨.int ['4', '2'], ⟨[], [' '], []⟩, ⟨[' '], [], []⟩⟩] [] 16
      (by
        intro p hp
        simp only [List.mem_singleton] at hp
        subst hp
        simp [PushCall.Valid, Literal.Valid, Spacing.Valid, Blank, isdigit, decimalValue])
      (by simp [Blank]) (by decide)).2
      (by
        intro p hp
        simp only [List.mem_singleton] at hp
        subst hp
        exact trivial),
   (parse_replay_round_trip [⟨.text ['h', 'i'], ⟨[], [' '], []⟩, ⟨[' '], [], []⟩⟩] [] 18
      (by
        intro p hp
        simp only [List.mem_singleton] at hp
        subst hp
        simp [PushCall.Valid, Literal.Valid, Spacing.Valid, Blank])
      (by simp [Blank]) (by decide)).2
      (by
        intro p hp
        simp only [List.mem_singleton] at hp
        subst hp
        simp [Literal.NulFree]),
   (parse_replay_round_trip
      [⟨.text ['h', 'i'], ⟨[], [' '], []⟩, ⟨[' '], [], []⟩⟩,
       ⟨.int ['4', '2'], ⟨['\n'], [' '], []⟩, ⟨[' '], [], []⟩⟩,
       ⟨.int ['0', '0', '7'], ⟨[' '], [' '], []⟩, ⟨[], [], []⟩⟩] [] 50
      (by
        intro p hp
        simp only [List.mem_cons, List.mem_singleton, List.not_mem_nil, or_false] at hp
        rcases hp with rfl | rfl | rfl <;>
          simp [PushCall.Valid, Literal.Valid, Spacing.Valid, Blank, isdigit, decimalValue])
      (by simp [Blank]) (by decide)).2
      (by
        intro p hp
        simp only [List.mem_cons, List.mem_singleton, List.not_mem_nil, or_false] at hp
        rcases hp with rfl | rfl | rfl <;> simp [Literal.NulFree]),
   (parse_replay_round_trip
      [⟨.text ['a', Char.ofNat 0, 'b'], ⟨[], [' '], []⟩, ⟨[' '], [], []⟩⟩] [] 20
      (by
        intro p hp
        simp only [List.mem_singleton] at hp
        subst hp
        simp [PushCall.Valid, Literal.Valid, Spacing.Valid, Blank])
      (by simp [Blank]) (by decide)).1⟩

/-! ### Counting terminators -/

theorem next_outside {m : Mode} {c : Char} (hm : m.inLiteral = false) (hc : c ≠ '"') :
    (m.next c).inLiteral = false := by
  cases m
  case string => simp [Mode.inLiteral] at hm
  case escape => simp [Mode.inLiteral] at hm
  all_goals
    simp only [Mode.next, hc, if_false]
    repeat' split
    all_goals rfl

theorem next_quote {m : Mode} (hm : m.inLiteral = false) : m.next '"' = .string := by
  cases m
  case string => simp [Mode.inLiteral] at hm
  case escape => simp [Mode.inLiteral] at hm
  all_goals simp [Mode.next]

theorem terminators_cons_outside {m : Mode} (hm : m.inLiteral = false) (c : Char)
    (rest : List Char) :
    terminators m (c :: rest) = (if c = ';' then 1 else 0) + terminators (m.next c) rest := by
  cases m
  case string => simp [Mode.inLiteral] at hm
  case escape => simp [Mode.inLiteral] at hm
  all_goals simp [terminators, Mode.inLiteral]

theorem terminators_cons_literal {m : Mode} (hm : m.inLiteral = true) (c : Char)
    (rest : List Char) : terminators m (c :: rest) = terminators (m.next c) rest := by
  cases m
  case code => simp [Mode.inLiteral] at hm
  case ident => simp [Mode.inLiteral] at hm
  case number => simp [Mode.inLiteral] at hm
  all_goals simp [terminators, Mode.inLiteral]

theorem terminators_outside {m : Mode} (hm : m.inLiteral = false) (l : List Char) :
    terminators m l = terminators .code l := by
  induction l generalizing m with
  | nil => rfl
  | cons c rest ih =>
    rw [terminators_cons_outside hm, terminators_cons_outside (m := .code) rfl]
    by_cases hc : c = '"'
    · subst hc
      rw [next_quote hm, next_quote (m := .code) rfl]
    · rw [ih (next_outside hm hc), ih (next_outside (m := .code) rfl hc)]

theorem alnum_ne_quote {c : Char} (h : isalnum c = true) : c ≠ '"' := by
  rintro rfl
  revert h
  decide

theorem alnum_ne_semicolon {c : Char} (h : isalnum c = true) : c ≠ ';' := by
  rintro rfl
  revert h
  decide

theorem terminators_run {m : Mode} (hm : m.inLiteral = false) {run : List Char}
    (hrun : ∀ c ∈ run, isalnum c = true) (r : List Char) :
    terminators m (run ++ r) = terminators .code r := by
  induction run generalizing m with
  | nil => exact terminators_outside hm r
  | cons c rest ih =>
    have hc := hrun c (by simp)
    rw [List.cons_append, terminators_cons_outside hm, if_neg (alnum_ne_semicolon hc),
      zero_add]
    exact ih (next_outside hm (alnum_ne_quote hc)) (fun d hd => hrun d (by simp [hd]))

theorem terminators_string {l str d r : List Char} (h : lexStr l str = some (d, r)) :
    terminators .string l = terminators .code r := by
  generalize hn : l.length = n
  induction n using Nat.strong_induction_on generalizing l str with
  | _ n ih =>
    match l, h, hn with
    | [], h, _ => simp [lexStr] at h
    | [c], h, _ =>
      simp only [lexStr] at h
      by_cases hq : c = '"'
      · simp only [hq, if_true, Option.some.injEq, Prod.mk.injEq] at h
        simp [terminators, Mode.inLiteral, ← h.2]
      · simp [hq] at h
    | c :: e :: rest, h, hn =>
      simp only [lexStr] at h
      by_cases hq : c = '"'
      · simp only [hq, if_true, Option.some.injEq, Prod.mk.injEq] at h
        rw [← h.2, hq]
        simp [terminators, Mode.inLiteral, Mode.next]
      · simp only [hq, if_false] at h
        by_cases hb : c = '\\'
        · simp only [hb, ne_eq, not_true_eq_false, if_false] at h
          have := ih rest.length (by subst hn; simp; omega) h rfl
          rw [← this, hb]
          simp [terminators, Mode.inLiteral, Mode.next]
        · simp only [ne_eq, hb, not_false_eq_true, if_true] at h
          have := ih (e :: rest).length (by subst hn; simp) h rfl
          rw [← this]
          simp [terminators, Mode.inLiteral, Mode.next, hq, hb]

theorem lexStep_terminators {suf r : List Char} {x y : OP × List OP}
    (h : lexStep suf x = .ret (y, r)) :
    y.2.length + terminators .code r = x.2.length + terminators .code suf := by
  cases suf with
  | nil =>
    simp only [lexStep, Outcome.ret.injEq, Prod.mk.injEq] at h
    rw [← h.1, ← h.2]
  | cons c rest =>
    simp only [lexStep] at h
    split at h
    · rename_i hc
      simp only [Outcome.ret.injEq, Prod.mk.injEq] at h
      rw [← h.1, ← h.2, hc]
      simp [terminators, Mode.inLiteral, Mode.next, isalpha, isdigit]
      omega
    · rename_i hc
      split at h
      · rename_i hb
        simp only [Outcome.ret.injEq, Prod.mk.injEq] at h
        rw [← h.1, ← h.2]
        rcases hb with rfl | rfl <;>
          simp [terminators, Mode.inLiteral, Mode.next, isalpha, isdigit]
      · split at h
        · rename_i hq
          split at h
          · rename_i d r1 hs
            simp only [Outcome.ret.injEq, Prod.mk.injEq] at h
            rw [← h.1, ← h.2, hq]
            simp [terminators, Mode.inLiteral, Mode.next, terminators_string hs]
          · cases h
        · split at h
          · rename_i ha
            simp only [Outcome.ret.injEq, Prod.mk.injEq] at h
            rw [← h.1, ← h.2]
            have hsplit := List.takeWhile_append_dropWhile isalpha (c :: rest)
            have hrun : ∀ d ∈ (c :: rest).takeWhile isalpha, isalnum d = true :=
              fun d hd => alpha_alnum (List.mem_takeWhile_imp hd)
            have := terminators_run (m := .code) rfl hrun ((c :: rest).dropWhile isalpha)
            rw [hsplit] at this
            rw [this]
          · split at h
            · rename_i ha
              obtain ⟨n, _, hret⟩ := bind_eq_ret h
              simp only [Outcome.ret.injEq, Prod.mk.injEq] at hret
              rw [← hret.1, ← hret.2]
              have hsplit := List.takeWhile_append_dropWhile isalnum (c :: rest)
              have hrun : ∀ d ∈ (c :: rest).takeWhile isalnum, isalnum d = true :=
                fun d hd => List.mem_takeWhile_imp hd
              have := terminators_run (m := .code) rfl hrun ((c :: rest).dropWhile isalnum)
              rw [hsplit] at this
              rw [this]
            · simp only [Outcome.ret.injEq, Prod.mk.injEq] at h
              rw [← h.1, ← h.2]

theorem lexLoop_terminators {fuel : Nat} {suf : List Char} {x y : OP × List OP}
    (h : lexLoop fuel suf x = some (.ret y)) :
    y.2.length = x.2.length + terminators .code suf := by
  induction fuel generalizing suf x with
  | zero => simp [lexLoop] at h
  | succ n ih =>
    rw [lexLoop] at h
    split at h
    · rename_i hnil
      simp only [Option.some.injEq, Outcome.ret.injEq] at h
      rw [hnil, ← h]
      rfl
    · cases hs : lexStep suf x with
      | ret a =>
        obtain ⟨x1, r⟩ := a
        simp only [hs] at h
        have h1 := ih h
        have h2 := lexStep_terminators hs
        omega
      | throws e => simp [hs] at h
      | undefined => simp [hs] at h

/-- C4: whenever `parseProgram` returns on a source text, the number of instructions it
appended is the number of terminators of the text, the characters `;` outside string
literals; and on every source text of the grammar it does return (given fuel beyond the
length of the text), the count being the number of statements. -/
theorem instruction_count_eq_terminators (source : List Char) (program : List OP) :
    (∀ (fuel : Nat) (result : List OP), parseProgram source program fuel = some (.ret result) →
      result.length = program.length + terminators .code source) ∧
    (∀ (stmts : List Statement) (tail : List Char), source = render stmts ++ tail →
      (∀ s ∈ stmts, s.Valid) → Blank tail → ∀ fuel, source.length < fuel →
      ∃ result, parseProgram source program fuel = some (.ret result) ∧
        result.length = program.length + terminators .code source ∧
        terminators .code source = stmts.length) := by
  have hcount : ∀ (fuel : Nat) (result : List OP),
      parseProgram source program fuel = some (.ret result) →
      result.length = program.length + terminators .code source := by
    intro fuel result h
    rw [parseProgram_eq_lexLoop] at h
    cases hl : lexLoop fuel source ({}, program) with
    | none => simp [hl] at h
    | some o =>
      cases o with
      | ret y =>
        simp only [hl, Option.map_some', finalProgram, bind_ret, Option.some.injEq,
          Outcome.ret.injEq] at h
        rw [← h]
        exact lexLoop_terminators hl
      | throws e => simp [hl, finalProgram] at h
      | undefined => simp [hl, finalProgram] at h
  refine ⟨hcount, ?_⟩
  intro stmts tail hsrc hvalid htail fuel hfuel
  subst hsrc
  have hparse := parse_render stmts tail program fuel hvalid htail hfuel
  have hlen := hcount fuel _ hparse
  refine ⟨_, hparse, hlen, ?_⟩
  simp only [List.length_append, List.length_map] at hlen
  omega

theorem instruction_count_eq_terminators_witness :
    ([OP_INTRINSIC .PUTS, { type := .PUSHS, soperand := ['a', ';', 'b'] }, {}] : List OP).length =
      ([] : List OP).length + terminators .code "puts  ;pushs \"a;b\";;".toList :=
  (instruction_count_eq_terminators "puts  ;pushs \"a;b\";;".toList []).1 30 _ (by decide)

/-! ### White space at a token boundary -/

theorem lexYields_first {suf rest : List Char} {x : OP × List OP}
    {o : Outcome (OP × List OP)} (hne : suf ≠ [])
    (hs : lexStep suf x = o.bind fun y => .ret (y, rest)) (r : Outcome (OP × List OP)) :
    LexYields suf x r ↔ YieldsAfter o rest r := by
  cases o with
  | ret y =>
    simp only [bind_ret] at hs
    constructor
    · rintro ⟨fuel, h⟩
      cases fuel with
      | zero => simp [lexLoop] at h
      | succ n =>
        rw [lexLoop_step hne hs] at h
        exact ⟨n, h⟩
    · rintro ⟨fuel, h⟩
      exact ⟨fuel + 1, by rw [lexLoop_step hne hs]; exact h⟩
  | throws e =>
    simp only [bind_throws] at hs
    constructor
    · rintro ⟨fuel, h⟩
      cases fuel with
      | zero => simp [lexLoop] at h
      | succ n =>
        rw [lexLoop] at h
        simp only [hne, if_false, hs, Option.some.injEq] at h
        exact h.symm
    · intro h
      refine ⟨1, ?_⟩
      rw [lexLoop]
      simp only [hne, if_false, hs]
      rw [show r = Outcome.throws e from h]
  | undefined =>
    simp only [bind_undefined] at hs
    constructor
    · rintro ⟨fuel, h⟩
      cases fuel with
      | zero => simp [lexLoop] at h
      | succ n =>
        rw [lexLoop] at h
        simp only [hne, if_false, hs, Option.some.injEq] at h
        exact h.symm
    · intro h
      refine ⟨1, ?_⟩
      rw [lexLoop]
      simp only [hne, if_false, hs]
      rw [show r = Outcome.undefined from h]

theorem lexYields_stuck {suf : List Char} {x : OP × List OP} (hne : suf ≠ [])
    (hs : lexStep suf x = .ret (x, suf)) (r : Outcome (OP × List OP)) :
    ¬ LexYields suf x r := by
  rintro ⟨fuel, h⟩
  rw [lexLoop_stuck hne hs] at h
  cases h

theorem modeAfter_append (m : Mode) (a b : List Char) :
    modeAfter m (a ++ b) = modeAfter (modeAfter m a) b := by
  induction a generalizing m with
  | nil => rfl
  | cons c rest ih => exact ih (m.next c)

theorem modeAfter_ident_cons (d : Char) (l : List Char) :
    modeAfter .ident (d :: l) = modeAfter .code (d :: l) := by
  simp only [modeAfter, Mode.next]

theorem modeAfter_number_cons {d : Char} (hd : isalnum d = false) (l : List Char) :
    modeAfter .number (d :: l) = modeAfter .code (d :: l) := by
  have h1 : isalpha d = false := by
    simp only [isalnum, Bool.or_eq_false_iff] at hd
    exact hd.1
  have h2 : isdigit d = false := by
    simp only [isalnum, Bool.or_eq_false_iff] at hd
    exact hd.2
  simp [modeAfter, Mode.next, hd, h1, h2]

theorem alpha_ne_quote {c : Char} (h : isalpha c = true) : c ≠ '"' :=
  alnum_ne_quote (alpha_alnum h)

theorem modeAfter_alpha {run : List Char} (hrun : ∀ c ∈ run, isalpha c = true) :
    modeAfter .ident run = .ident := by
  induction run with
  | nil => rfl
  | cons c rest ih =>
    have hc := hrun c (by simp)
    simp only [modeAfter, Mode.next, alpha_ne_quote hc, hc, if_false, if_true]
    exact ih (fun d hd => hrun d (by simp [hd]))

theorem modeAfter_alnum {run : List Char} (hrun : ∀ c ∈ run, isalnum c = true) :
    modeAfter .number run = .number := by
  induction run with
  | nil => rfl
  | cons c rest ih =>
    have hc := hrun c (by simp)
    simp only [modeAfter, Mode.next, alnum_ne_quote hc, hc, if_false, if_true]
    exact ih (fun d hd => hrun d (by simp [hd]))

theorem ends_outside {m : Mode} {t : List Char} (h : m.Ends t) : m.inLiteral = false := by
  cases m
  case string => exact absurd h id
  case escape => exact absurd h id
  all_goals rfl

theorem ends_blank {m : Mode} {b : List Char} (h : m.Ends b) {w : Char}
    (hw : w = ' ' ∨ w = '\n') : m.Ends (w :: b) := by
  cases m
  case code => exact trivial
  case ident => exact startsOutside_cons _ (blank_not_alpha hw)
  case number => exact startsOutside_cons _ (blank_not_alnum hw)
  case string => exact absurd h id
  case escape => exact absurd h id

theorem dropWhile_head_outside (p : Char → Bool) (l : List Char) :
    StartsOutside p (l.dropWhile p) := by
  induction l with
  | nil => exact startsOutside_nil p
  | cons c rest ih =>
    by_cases hc : p c = true
    · rw [List.dropWhile_cons_of_pos hc]
      exact ih
    · rw [List.dropWhile_cons_of_neg hc]
      exact startsOutside_cons _ (by simpa using hc)

/-- A token that is a run of the class `p` and starts at the head of `a`: the run, and the
rest of `a`, which the run does not reach into. -/
theorem run_peel (p : Char → Bool) (c : Char) (a1 : List Char) (hc : p c = true) :
    ∃ run rem, run ≠ [] ∧ (∀ d ∈ run, p d = true) ∧ c :: a1 = run ++ rem ∧
      rem.length < (c :: a1).length ∧ StartsOutside p rem := by
  refine ⟨(c :: a1).takeWhile p, (c :: a1).dropWhile p, ?_, ?_, ?_, ?_, ?_⟩
  · rw [List.takeWhile_cons_of_pos hc]
    simp
  · intro d hd
    exact List.mem_takeWhile_imp hd
  · exact (List.takeWhile_append_dropWhile p (c :: a1)).symm
  · have h := length_takeWhile_add_dropWhile p (c :: a1)
    have h1 : 0 < ((c :: a1).takeWhile p).length := by
      rw [List.takeWhile_cons_of_pos hc]
      simp
    omega
  · exact dropWhile_head_outside p (c :: a1)

theorem startsOutside_append_of {p : Char → Bool} {rem t : List Char}
    (hrem : StartsOutside p rem) (ht : rem = [] → StartsOutside p t) :
    StartsOutside p (rem ++ t) := by
  cases rem with
  | nil => simpa using ht rfl
  | cons d l =>
    intro e he
    exact hrem e (by simpa using he)

/-- The body of a string literal that is closed inside `a1`: what the scan of the literal
gives whatever text follows `a1`. -/
theorem string_peel (a1 : List Char) (str : List Char)
    (hmode : (modeAfter .string a1).inLiteral = false) :
    ∃ d rem, rem.length < a1.length ∧ modeAfter .string a1 = modeAfter .code rem ∧
      ∀ t, lexStr (a1 ++ t) str = some (str ++ d, rem ++ t) := by
  generalize hn : a1.length = n
  induction n using Nat.strong_induction_on generalizing a1 str with
  | _ n ih =>
    match a1, hmode, hn with
    | [], hmode, _ => exact absurd hmode (by decide)
    | c :: rest, hmode, hn =>
      by_cases hq : c = '"'
      · subst hq
        refine ⟨[], rest, by simp only [List.length_cons] at hn; omega,
          by simp [modeAfter, Mode.next], ?_⟩
        intro t
        rw [List.cons_append, lexStr_quote]
        simp
      · by_cases hb : c = '\\'
        · subst hb
          match rest, hmode, hn with
          | [], hmode, _ => exact absurd hmode (by decide)
          | e :: rest2, hmode, hn =>
            have hm2 : modeAfter .string ('\\' :: e :: rest2) = modeAfter .string rest2 := by
              simp [modeAfter, Mode.next]
            rw [hm2] at hmode
            obtain ⟨d, rem, hlen, hmd, hlex⟩ :=
              ih rest2.length (by subst hn; simp; omega) rest2 (str ++ escapeText e) hmode rfl
            refine ⟨escapeText e ++ d, rem, by simp only [List.length_cons] at hn; omega,
              by rw [hm2, hmd], ?_⟩
            intro t
            rw [List.cons_append, List.cons_append, lexStr_escape, hlex t]
            simp
        · have hm1 : modeAfter .string (c :: rest) = modeAfter .string rest := by
            simp [modeAfter, Mode.next, hq, hb]
          rw [hm1] at hmode
          have hne : rest ≠ [] := by
            rintro rfl
            exact absurd hmode (by decide)
          obtain ⟨d, rem, hlen, hmd, hlex⟩ :=
            ih rest.length (by subst hn; simp) rest (str ++ [c]) hmode rfl
          refine ⟨c :: d, rem, by simp only [List.length_cons] at hn; omega, by rw [hm1, hmd],
            ?_⟩
          intro t
          rw [List.cons_append, lexStr_plain hq hb (by simp [hne]), hlex t]
          simp


theorem modeAfter_code_alpha {run : List Char} (hne : run ≠ [])
    (hrun : ∀ c ∈ run, isalpha c = true) : modeAfter .code run = .ident := by
  cases run with
  | nil => exact absurd rfl hne
  | cons c l => rw [← modeAfter_ident_cons, modeAfter_alpha hrun]

theorem modeAfter_code_number {c : Char} {l : List Char} (ha : isalpha c = false)
    (hrun : ∀ d ∈ c :: l, isalnum d = true) : modeAfter .code (c :: l) = .number := by
  have hc := hrun c (by simp)
  have hd : isdigit c = true := by
    simpa [isalnum, ha] using hc
  simp only [modeAfter, Mode.next, alnum_ne_quote hc, ha, hd, if_false, if_true]
  exact modeAfter_alnum (fun d hd => hrun d (by simp [hd]))

/-- The first iteration of the scan on a text that starts with `c :: a1`: either it changes
nothing, or its outcome and the part of `a1` it leaves are the same whatever text `t`
follows `a1` at a token boundary. -/
theorem first_token (c : Char) (a1 : List Char) (x : OP × List OP) :
    (∀ l, lexStep (c :: l) x = .ret (x, c :: l)) ∨
    ∃ (o : Outcome (OP × List OP)) (rem : List Char), rem.length < (c :: a1).length ∧
      ∀ t, (modeAfter .code (c :: a1)).Ends t →
        (modeAfter .code rem).Ends t ∧
        lexStep (c :: (a1 ++ t)) x = o.bind fun y => .ret (y, rem ++ t) := by
  by_cases h1 : c = ';'
  · subst h1
    right
    refine ⟨.ret ({}, x.2 ++ [x.1]), a1, by simp, ?_⟩
    intro t ht
    have hn : Mode.code.next ';' = .code := by decide
    simp only [modeAfter, hn] at ht
    exact ⟨ht, by simp [lexStep]⟩
  by_cases h2 : c = '\n' ∨ c = ' '
  · right
    refine ⟨.ret x, a1, by simp, ?_⟩
    intro t ht
    have hn : Mode.code.next c = .code := by
      rcases h2 with rfl | rfl <;> decide
    simp only [modeAfter, hn] at ht
    refine ⟨ht, ?_⟩
    rw [lexStep_blank c _ x (by tauto)]
    rfl
  by_cases h3 : c = '"'
  · subst h3
    right
    have hn : Mode.code.next '"' = .string := by decide
    by_cases hlit : (modeAfter .string a1).inLiteral = false
    · obtain ⟨d, rem, hlen, hmd, hlex⟩ := string_peel a1 [] hlit
      refine ⟨.ret ({ x.1 with soperand := d }, x.2), rem,
        by simp only [List.length_cons]; omega, ?_⟩
      intro t ht
      simp only [modeAfter, hn] at ht
      rw [hmd] at ht
      refine ⟨ht, ?_⟩
      have := hlex t
      simp only [List.nil_append] at this
      simp [lexStep, this]
    · refine ⟨.undefined, [], by simp, ?_⟩
      intro t ht
      simp only [modeAfter, hn] at ht
      exact absurd (ends_outside ht) hlit
  by_cases h4 : isalpha c = true
  · right
    obtain ⟨run, rem, hne, hrun, heq, hlen, hrem⟩ := run_peel isalpha c a1 h4
    refine ⟨.ret (applyIdent x.1 run, x.2), rem, hlen, ?_⟩
    intro t ht
    rw [heq, modeAfter_append, modeAfter_code_alpha hne hrun] at ht
    have hends : (modeAfter .code rem).Ends t := by
      cases rem with
      | nil => exact trivial
      | cons d l =>
        rw [modeAfter_ident_cons] at ht
        exact ht
    have hstart : StartsOutside isalpha (rem ++ t) :=
      startsOutside_append_of hrem (fun hnil => by subst hnil; exact ht)
    obtain ⟨htake, hdrop⟩ := takeWhile_run hrun hstart
    have hsplit : c :: (a1 ++ t) = run ++ (rem ++ t) := by
      rw [← List.append_assoc, ← heq]
      rfl
    refine ⟨hends, ?_⟩
    simp only [lexStep, h1, h2, h3, h4, if_false, if_true, bind_ret]
    rw [hsplit, htake, hdrop]
  by_cases h5 : isalnum c = true
  · right
    have h4f : isalpha c = false := by simpa using h4
    obtain ⟨run, rem, hne, hrun, heq, hlen, hrem⟩ := run_peel isalnum c a1 h5
    refine ⟨(stoi run).bind fun n => .ret ({ x.1 with operand := n }, x.2), rem, hlen, ?_⟩
    intro t ht
    have hmode : modeAfter .code run = .number := by
      cases run with
      | nil => exact absurd rfl hne
      | cons r0 l =>
        have hr0 : r0 = c := by
          simp only [List.cons_append, List.cons.injEq] at heq
          exact heq.1.symm
        subst hr0
        exact modeAfter_code_number h4f hrun
    rw [heq, modeAfter_append, hmode] at ht
    have hstart : StartsOutside isalnum (rem ++ t) :=
      startsOutside_append_of hrem (fun hnil => by subst hnil; exact ht)
    have hends : (modeAfter .code rem).Ends t := by
      cases rem with
      | nil => exact trivial
      | cons d l =>
        rw [modeAfter_number_cons (hrem d rfl)] at ht
        exact ht
    obtain ⟨htake, hdrop⟩ := takeWhile_run hrun hstart
    have hsplit : c :: (a1 ++ t) = run ++ (rem ++ t) := by
      rw [← List.append_assoc, ← heq]
      rfl
    refine ⟨hends, ?_⟩
    simp only [lexStep, h1, h2, h3, h4, h5, if_false, if_true]
    rw [hsplit, htake, hdrop]
    cases stoi run with
    | ret n => rfl
    | throws e => rfl
    | undefined => rfl
  · left
    intro l
    simp [lexStep, h1, h2, h3, h4, h5]

/-- Inserting a space or a newline at a token boundary does not change what the scan
yields. -/
theorem lex_insert_blank (a b : List Char) (w : Char) (hw : w = ' ' ∨ w = '\n')
    (hb : (modeAfter .code a).Ends b) (x : OP × List OP) (r : Outcome (OP × List OP)) :
    LexYields (a ++ b) x r ↔ LexYields (a ++ w :: b) x r := by
  generalize hn : a.length = n
  induction n using Nat.strong_induction_on generalizing a x with
  | _ n ih =>
    cases a with
    | nil =>
      have hs : lexStep (w :: b) x = (Outcome.ret x).bind fun y => .ret (y, b) :=
        lexStep_blank w b x hw
      rw [List.nil_append, List.nil_append, lexYields_first (by simp) hs]
      rfl
    | cons c a1 =>
      rcases first_token c a1 x with hstuck | ⟨o, rem, hlen, hstep⟩
      · constructor
        · intro h
          exact absurd h (lexYields_stuck (by simp) (hstuck _) r)
        · intro h
          exact absurd h (lexYields_stuck (by simp) (hstuck _) r)
      · obtain ⟨hends, hs1⟩ := hstep b hb
        obtain ⟨_, hs2⟩ := hstep (w :: b) (ends_blank hb hw)
        rw [List.cons_append, List.cons_append, lexYields_first (by simp) hs1,
          lexYields_first (by simp) hs2]
        cases o with
        | ret y => exact ih rem.length (by omega) rem hends y rfl
        | throws e => rfl
        | undefined => rfl

theorem yields_iff_lexYields (source : List Char) (program : List OP)
    (r : Outcome (List OP)) :
    Yields source program r ↔ ∃ r1, LexYields source ({}, program) r1 ∧ finalProgram r1 = r := by
  constructor
  · rintro ⟨fuel, h⟩
    rw [parseProgram_eq_lexLoop] at h
    cases hl : lexLoop fuel source ({}, program) with
    | none => simp [hl] at h
    | some r1 =>
      simp only [hl, Option.map_some', Option.some.injEq] at h
      exact ⟨r1, ⟨fuel, hl⟩, h⟩
  · rintro ⟨r1, ⟨fuel, hl⟩, h⟩
    exact ⟨fuel, by rw [parseProgram_eq_lexLoop, hl, ← h]; rfl⟩

/-- C6: inserting a space or a newline at a token boundary of a source text (a position
that is not inside a string literal and splits neither an identifier run nor a number run)
does not change what `parseProgram` does: with enough fuel it ends in the same outcome on
both texts, in particular it returns the same instruction sequence. -/
theorem blank_at_boundary_insignificant (a b : List Char) (w : Char) (program : List OP)
    (r : Outcome (List OP)) (hb : TokenBoundary a b) (hw : w = ' ' ∨ w = '\n') :
    Yields (a ++ b) program r ↔ Yields (a ++ w :: b) program r := by
  rw [yields_iff_lexYields, yields_iff_lexYields]
  constructor
  · rintro ⟨r1, h1, h2⟩
    exact ⟨r1, (lex_insert_blank a b w hw hb _ r1).mp h1, h2⟩
  · rintro ⟨r1, h1, h2⟩
    exact ⟨r1, (lex_insert_blank a b w hw hb _ r1).mpr h1, h2⟩

theorem blank_at_boundary_insignificant_witness :
    Yields ("pushi".toList ++ '\n' :: "42;exit;".toList) []
      (.ret [{ type := .PUSHI, operand := 42 }, INTRINSIC_EXIT]) :=
  (blank_at_boundary_insignificant "pushi".toList "42;exit;".toList '\n' []
    (.ret [{ type := .PUSHI, operand := 42 }, INTRINSIC_EXIT])
    (startsOutside_cons _ (by decide)) (Or.inr rfl)).mp ⟨20, by decide⟩

/-- The predicate `TokenBoundary` on examples: the position between an identifier and a
number that follows it, and the positions around a terminator, are boundaries; a position
inside an identifier, inside a number run, or inside a string literal is not. -/
theorem tokenBoundary_examples :
    TokenBoundary "pushi".toList "42;".toList ∧
    TokenBoundary "pushi 42".toList ";exit;".toList ∧
    TokenBoundary "pushi 42;".toList "exit;".toList ∧
    TokenBoundary "pushs \"a b\"".toList ";".toList ∧
    ¬ TokenBoundary "pu".toList "shi 42;".toList ∧
    ¬ TokenBoundary "pushi 4".toList "2;".toList ∧
    ¬ TokenBoundary "pushi 12".toList "ab;".toList ∧
    ¬ TokenBoundary "pushs \"a".toList " b\";".toList := by
  refine ⟨startsOutside_cons _ (by decide), startsOutside_cons _ (by decide), trivial,
    trivial, ?_, ?_, ?_, ?_⟩
  · intro h
    exact absurd (h 's' rfl) (by decide)
  · intro h
    exact absurd (h '2' rfl) (by decide)
  · intro h
    exact absurd (h 'a' rfl) (by decide)
  · intro h
    exact h

/-! ### Claims about `NOP` and the stack pointer -/

/-- C18, as stated, fails: a hundred pushes on a fresh stack all complete, and leave the
stack pointer at 100, which is not below the capacity. -/
theorem hundred_pushes_reach_capacity :
    ((runCalls Stack.fresh (List.replicate 100 (StackCall.push 7))).bind fun s =>
      .ret s.sp) = .ret (100 : Int) ∧ ¬ ((100 : Int) < 100) := by
  constructor
  · decide
  · decide

/-- C18, amended: after every sequence of `push`, `pushs`, `pop` and `pops` calls that
completes on a fresh stack, the stack pointer is between 0 and the capacity, the capacity
included: `0 ≤ sp ≤ 100`. -/
theorem stack_pointer_within_capacity (calls : List StackCall) (s : Stack)
    (h : runCalls Stack.fresh calls = .ret s) : 0 ≤ s.sp ∧ s.sp ≤ 100 :=
  (runCalls_shaped fresh_shaped h).2

theorem stack_pointer_within_capacity_witness :
    runCalls Stack.fresh [.push 3, .pushs ['x'], .pop] =
      .ret { stack := 3 :: 0 :: List.replicate 98 0, strcnt := 1,
             stringtable := [(0, ['x'])], sp := 1 } ∧
    (0 : Int) ≤ 1 ∧ (1 : Int) ≤ 100 :=
  ⟨by decide,
   stack_pointer_within_capacity [.push 3, .pushs ['x'], .pop]
    { stack := 3 :: 0 :: List.replicate 98 0, strcnt := 1, stringtable := [(0, ['x'])],
      sp := 1 } (by decide)⟩

/-! ### One token at the cursor -/

theorem lexStep_ident {run rest : List Char} (hne : run ≠ [])
    (hrun : ∀ c ∈ run, isalpha c = true) (hrest : StartsOutside isalpha rest) (cur : OP)
    (prog : List OP) :
    lexStep (run ++ rest) (cur, prog) = .ret ((applyIdent cur run, prog), rest) := by
  obtain ⟨htake, hdrop⟩ := takeWhile_run hrun hrest
  cases run with
  | nil => exact absurd rfl hne
  | cons c l =>
    have hc : isalpha c = true := hrun c (by simp)
    have h1 : c ≠ ';' := alnum_ne_semicolon (alpha_alnum hc)
    have h2 : ¬ (c = '\n' ∨ c = ' ') := by
      rintro (rfl | rfl) <;> revert hc <;> decide
    have h3 : c ≠ '"' := alpha_ne_quote hc
    rw [List.cons_append] at htake hdrop ⊢
    simp only [lexStep, h1, h2, h3, hc, if_false, if_true, htake, hdrop]

theorem lexStep_number {d : Char} {l rest : List Char} (hd : isdigit d = true)
    (hl : ∀ c ∈ l, isalnum c = true) (hrest : StartsOutside isalnum rest) (cur : OP)
    (prog : List OP) :
    lexStep (d :: l ++ rest) (cur, prog) =
      (stoi (d :: l)).bind fun n => .ret (({ cur with operand := n }, prog), rest) := by
  have hrun : ∀ c ∈ d :: l, isalnum c = true := by
    intro c hc
    simp only [List.mem_cons] at hc
    rcases hc with rfl | hc
    · exact digit_alnum hd
    · exact hl c hc
  obtain ⟨htake, hdrop⟩ := takeWhile_run hrun hrest
  have ha : isalpha d = false := digit_not_alpha hd
  have hn : isalnum d = true := digit_alnum hd
  have h1 : d ≠ ';' := alnum_ne_semicolon hn
  have h2 : ¬ (d = '\n' ∨ d = ' ') := by
    rintro (rfl | rfl) <;> revert hd <;> decide
  have h3 : d ≠ '"' := alnum_ne_quote hn
  rw [List.cons_append] at htake hdrop ⊢
  simp only [lexStep, h1, h2, h3, ha, hn, if_false, if_true, htake, hdrop]
  simp

/-- The iteration of the loop of `parseProgram` at a token `tok` that the scan on the text
after the cursor reads in full: the cursor ends just past the token. -/
theorem step_token {pre tok rest : List Char} (hne : tok ≠ []) {cur : OP} {prog : List OP}
    {o : Outcome (OP × List OP)}
    (h : lexStep (tok ++ rest) (cur, prog) = o.bind fun y => .ret (y, rest)) :
    step (pre ++ (tok ++ rest)) { current := cur, cursor := pre.length, program := prog } =
      o.bind fun y =>
        .ret { current := y.1, cursor := pre.length + tok.length, program := y.2 } := by
  cases tok with
  | nil => exact absurd rfl hne
  | cons c l =>
    rw [List.cons_append] at h ⊢
    rw [step_eq, h]
    cases o with
    | ret y =>
      simp only [bind_ret, List.length_append, List.length_cons, PState.mk.injEq,
        Outcome.ret.injEq, true_and, and_true]
      omega
    | throws e => rfl
    | undefined => rfl

theorem stoi_token {d : Char} (l : List Char) (hd : isdigit d = true) :
    stoi (d :: l) =
      if decimalValue ((d :: l).takeWhile isdigit) ≤ 2147483647 then
        .ret (decimalValue ((d :: l).takeWhile isdigit) : Int)
      else .throws .out_of_range := by
  have hsp : isspace d = false := by
    simp only [isdigit, isspace, Bool.and_eq_true, decide_eq_true_eq, Bool.or_eq_false_iff,
      Bool.and_eq_false_iff, decide_eq_false_iff_not] at hd ⊢
    omega
  have hm : d ≠ '-' := by rintro rfl; revert hd; decide
  have hp : d ≠ '+' := by rintro rfl; revert hd; decide
  have hdw : (d :: l).dropWhile isspace = d :: l := by
    simp [List.dropWhile_cons, hsp]
  have hne1 : ¬ (some d = some '-') := by simpa using hm
  have hne2 : ¬ (some d = some '+') := by simpa using hp
  have hdig : (d :: l).takeWhile isdigit ≠ [] := by
    rw [List.takeWhile_cons_of_pos hd]
    simp
  have hlow : (-2147483648 : Int) ≤ (decimalValue ((d :: l).takeWhile isdigit) : Int) := by
    have := decimalValue_nonneg_cast ((d :: l).takeWhile isdigit)
    omega
  unfold stoi
  simp only [hdw, List.head?_cons, hne1, hne2, or_self, if_false, hdig, hlow, true_and]
  by_cases hmax : decimalValue ((d :: l).takeWhile isdigit) ≤ 2147483647
  · have hmax1 : (decimalValue ((d :: l).takeWhile isdigit) : Int) ≤ 2147483647 := by
      exact_mod_cast hmax
    simp only [hmax, hmax1, if_true]
  · have hmax1 : ¬ (decimalValue ((d :: l).takeWhile isdigit) : Int) ≤ 2147483647 := by
      intro h
      exact hmax (by exact_mod_cast h)
    simp only [hmax, hmax1, if_false]


theorem step_ident {pre run rest : List Char} (hne : run ≠ [])
    (hrun : ∀ c ∈ run, isalpha c = true) (hrest : StartsOutside isalpha rest) (cur : OP)
    (prog : List OP) :
    step (pre ++ (run ++ rest)) { current := cur, cursor := pre.length, program := prog } =
      .ret { current := applyIdent cur run, cursor := pre.length + run.length,
             program := prog } := by
  have h : lexStep (run ++ rest) (cur, prog) =
      (Outcome.ret (applyIdent cur run, prog)).bind fun y => .ret (y, rest) :=
    lexStep_ident hne hrun hrest cur prog
  exact step_token hne h

theorem step_number {pre : List Char} {d : Char} {l rest : List Char} (hd : isdigit d = true)
    (hl : ∀ c ∈ l, isalnum c = true) (hrest : StartsOutside isalnum rest) (cur : OP)
    (prog : List OP) :
    step (pre ++ (d :: l ++ rest)) { current := cur, cursor := pre.length, program := prog } =
      (stoi (d :: l)).bind fun n =>
        .ret { current := { cur with operand := n }, cursor := pre.length + (d :: l).length,
               program := prog } := by
  have h : lexStep (d :: l ++ rest) (cur, prog) =
      ((stoi (d :: l)).bind fun n => Outcome.ret ({ cur with operand := n }, prog)).bind
        fun y => .ret (y, rest) := by
    rw [lexStep_number hd hl hrest]
    cases stoi (d :: l) <;> rfl
  rw [step_token (by simp) h]
  cases stoi (d :: l) <;> rfl

/-! ### Claims about single tokens -/

/-- C12: when the cursor is on the identifier `puts` the iteration sets the accumulator to
exactly `(INTRINSIC, 1, "")`, on `exit` to exactly `(INTRINSIC, 0, "")`, whatever it held;
on `pushi` and on `pushs` it changes the kind field only and keeps both operand fields; in
each case the cursor moves past the identifier and the program is untouched. -/
theorem keyword_sets_accumulator (pre rest : List Char) (cur : OP) (prog : List OP)
    (hrest : StartsOutside isalpha rest) :
    step (pre ++ ("puts".toList ++ rest))
        { current := cur, cursor := pre.length, program := prog } =
      .ret { current := { type := .INTRINSIC, operand := 1, soperand := [] },
             cursor := pre.length + 4, program := prog } ∧
    step (pre ++ ("exit".toList ++ rest))
        { current := cur, cursor := pre.length, program := prog } =
      .ret { current := { type := .INTRINSIC, operand := 0, soperand := [] },
             cursor := pre.length + 4, program := prog } ∧
    step (pre ++ ("pushi".toList ++ rest))
        { current := cur, cursor := pre.length, program := prog } =
      .ret { current := { type := .PUSHI, operand := cur.operand, soperand := cur.soperand },
             cursor := pre.length + 5, program := prog } ∧
    step (pre ++ ("pushs".toList ++ rest))
        { current := cur, cursor := pre.length, program := prog } =
      .ret { current := { type := .PUSHS, operand := cur.operand, soperand := cur.soperand },
             cursor := pre.length + 5, program := prog } := by
  refine ⟨?_, ?_, ?_, ?_⟩
  · rw [step_ident (by decide) (by decide) hrest, applyIdent_puts]
    rfl
  · rw [step_ident (by decide) (by decide) hrest, applyIdent_exit]
    rfl
  · rw [step_ident (by decide) (by decide) hrest, applyIdent_pushi]
    rfl
  · rw [step_ident (by decide) (by decide) hrest, applyIdent_pushs]
    rfl

theorem keyword_sets_accumulator_witness :
    step "pushi 7 puts;".toList
        { current := { type := .PUSHI, operand := 7, soperand := [] }, cursor := 8,
          program := [] } =
      .ret { current := { type := .INTRINSIC, operand := 1, soperand := [] },
             cursor := 8 + 4, program := [] } :=
  (keyword_sets_accumulator "pushi 7 ".toList ";".toList
    { type := .PUSHI, operand := 7, soperand := [] } []
    (startsOutside_cons _ (by decide))).1

/-- C14, as stated, fails: the token `12ab` does produce a value.  `std::stoi` reads the
leading digits and ignores the rest, so the operand becomes 12 and `12ab;` appends the
instruction `(NOP, 12, "")`. -/
theorem token_12ab_gives_12 :
    step "12ab;".toList { current := {}, cursor := 0, program := [] } =
      .ret { current := { type := .NOP, operand := 12, soperand := [] }, cursor := 4,
             program := [] } ∧
    parseProgram "12ab;".toList [] 3 =
      some (.ret [{ type := .NOP, operand := 12, soperand := [] }]) := by
  constructor <;> decide

/-- C14, amended: when the cursor is on a decimal digit the token is the maximal run of
letters and digits that starts there and the cursor moves just past it; the operand of the
accumulator is set to the decimal value of the leading run of digits of the token (what
follows the digits is ignored), provided that value is at most 2147483647; beyond it
`std::stoi` throws `out_of_range` and the iteration does not return. -/
theorem number_token_reads_leading_digits (pre : List Char) (d : Char) (l rest : List Char)
    (cur : OP) (prog : List OP) (hd : isdigit d = true) (hl : ∀ c ∈ l, isalnum c = true)
    (hrest : StartsOutside isalnum rest) :
    tryParseNumber (pre ++ (d :: l ++ rest)) pre.length =
      .ret (d :: l, pre.length + (d :: l).length) ∧
    (decimalValue ((d :: l).takeWhile isdigit) ≤ 2147483647 →
      step (pre ++ (d :: l ++ rest))
          { current := cur, cursor := pre.length, program := prog } =
        .ret { current := { cur with operand := decimalValue ((d :: l).takeWhile isdigit) },
               cursor := pre.length + (d :: l).length, program := prog }) ∧
    (2147483647 < decimalValue ((d :: l).takeWhile isdigit) →
      step (pre ++ (d :: l ++ rest))
          { current := cur, cursor := pre.length, program := prog } =
        .throws .out_of_range) := by
  have hrun : ∀ c ∈ d :: l, isalnum c = true := by
    intro c hc
    simp only [List.mem_cons] at hc
    rcases hc with rfl | hc
    · exact digit_alnum hd
    · exact hl c hc
  refine ⟨?_, ?_, ?_⟩
  · rw [tryParseNumber_eq, (takeWhile_run hrun hrest).1]
  · intro hmax
    rw [step_number hd hl hrest, stoi_token l hd, if_pos hmax]
    rfl
  · intro hmax
    rw [step_number hd hl hrest, stoi_token l hd, if_neg (by omega)]
    rfl

theorem number_token_reads_leading_digits_witness :
    tryParseNumber "pushi 12ab;".toList 6 = .ret ("12ab".toList, 6 + 4) ∧
    step "pushi 12ab;".toList
        { current := { type := .PUSHI }, cursor := 6, program := [] } =
      .ret { current := { type := .PUSHI, operand := 12 }, cursor := 6 + 4, program := [] } ∧
    step "pushi 2147483648;".toList
        { current := { type := .PUSHI }, cursor := 6, program := [] } =
      .throws .out_of_range :=
  ⟨(number_token_reads_leading_digits "pushi ".toList '1' "2ab".toList ";".toList
      { type := .PUSHI } [] (by decide) (by decide) (startsOutside_cons _ (by decide))).1,
   (number_token_reads_leading_digits "pushi ".toList '1' "2ab".toList ";".toList
      { type := .PUSHI } [] (by decide) (by decide) (startsOutside_cons _ (by decide))).2.1
      (by decide),
   (number_token_reads_leading_digits "pushi ".toList '2' "147483648".toList ";".toList
      { type := .PUSHI } [] (by decide) (by decide) (startsOutside_cons _ (by decide))).2.2
      (by decide)⟩

/-! ### Claims about whole statements -/

theorem stmt_op_clean (st : Stmt) : st.op.Clean := by
  cases st <;> simp [Stmt.op, OP.Clean]

theorem item_op_clean (item : Item) : item.op.Clean := by
  cases item with
  | full s => exact stmt_op_clean s.stmt
  | bare lead => simp [Item.op, OP.Clean]

theorem lex_item (item : Item) (hv : item.Valid) :
    ∃ k, k ≤ item.text.length ∧ ∀ (fuel : Nat) (rest : List Char) (prog : List OP),
      lexLoop (fuel + k) (item.text ++ rest) ({}, prog) =
        lexLoop fuel rest ({}, prog ++ [item.op]) := by
  cases item with
  | full s => exact lex_statement s hv
  | bare lead =>
    refine ⟨1 + lead.length, by simp [Item.text]; omega, ?_⟩
    intro fuel rest prog
    have hb : Blank lead := hv
    rw [← Nat.add_assoc]
    simp only [Item.text, List.append_assoc, List.singleton_append]
    rw [lex_blank hb, lex_terminator]
    rfl

theorem lex_items (items : List Item) (hvalid : ∀ i ∈ items, i.Valid) :
    ∃ k, k ≤ (renderItems items).length ∧ ∀ (fuel : Nat) (rest : List Char) (prog : List OP),
      lexLoop (fuel + k) (renderItems items ++ rest) ({}, prog) =
        lexLoop fuel rest ({}, prog ++ items.map Item.op) := by
  induction items with
  | nil => exact ⟨0, by simp [renderItems], by simp [renderItems]⟩
  | cons i more ih =>
    obtain ⟨k1, hk1, h1⟩ := lex_item i (hvalid i (by simp))
    obtain ⟨k2, hk2, h2⟩ := ih (fun t ht => hvalid t (by simp [ht]))
    refine ⟨k2 + k1, ?_, ?_⟩
    · simp only [renderItems, List.length_append]
      omega
    · intro fuel rest prog
      rw [← Nat.add_assoc, renderItems, List.append_assoc, h1, h2]
      simp

/-- C11, as stated, fails: on `5;exit 7;pushi "x";pushs 3;` `parseProgram` returns, and
it appends a `NOP` with operand 5, an `INTRINSIC` with operand 7, a `PUSHI` with the string
operand `x` and a `PUSHS` with operand 3. -/
theorem stray_literal_breaks_invariant :
    parseProgram "5;exit 7;pushi \"x\";pushs 3;".toList [] 30 =
      some (.ret [{ type := .NOP, operand := 5, soperand := [] },
                  { type := .INTRINSIC, operand := 7, soperand := [] },
                  { type := .PUSHI, operand := 0, soperand := ['x'] },
                  { type := .PUSHS, operand := 3, soperand := [] }]) ∧
    ¬ OP.Clean { type := .NOP, operand := 5, soperand := [] } ∧
    ¬ OP.Clean { type := .INTRINSIC, operand := 7, soperand := [] } ∧
    ¬ OP.Clean { type := .PUSHI, operand := 0, soperand := ['x'] } ∧
    ¬ OP.Clean { type := .PUSHS, operand := 3, soperand := [] } := by
  refine ⟨by decide, ?_, ?_, ?_, ?_⟩ <;> simp [OP.Clean]

/-- C11, amended: for every source text that is a sequence of well-formed statements
`pushi <n>;`, `pushs "<s>";`, `puts;`, `exit;` and of empty statements `;`, with any white
space, `parseProgram` returns (given fuel beyond the length of the text) and every
instruction it appends has its unused fields zero or empty: a `NOP` has operand 0 and an
empty string operand, a `PUSHI` an empty string operand, a `PUSHS` operand 0, and an
`INTRINSIC` an empty string operand and operand 0 or 1. -/
theorem grammar_instructions_clean (items : List Item) (tail : List Char)
    (program : List OP) (fuel : Nat) (hvalid : ∀ i ∈ items, i.Valid) (htail : Blank tail)
    (hfuel : (renderItems items ++ tail).length < fuel) :
    parseProgram (renderItems items ++ tail) program fuel =
      some (.ret (program ++ items.map Item.op)) ∧
    ∀ op ∈ items.map Item.op, op.Clean := by
  constructor
  · obtain ⟨k, hk, h⟩ := lex_items items hvalid
    have hrun : lexLoop (0 + 1 + tail.length + k) (renderItems items ++ tail) ({}, program) =
        some (.ret ({}, program ++ items.map Item.op)) := by
      have := lex_blank htail (0 + 1) [] ({}, program ++ items.map Item.op)
      rw [List.append_nil] at this
      rw [h, this]
      exact lexLoop_nil 0 _
    rw [parseProgram_eq_lexLoop,
      lexLoop_le hrun (by simp only [List.length_append] at hfuel; omega)]
    rfl
  · intro op hop
    simp only [List.mem_map] at hop
    obtain ⟨item, _, rfl⟩ := hop
    exact item_op_clean item

theorem grammar_instructions_clean_witness :
    parseProgram "pushi 5; ;\npushs \"x\";puts;".toList [] 30 =
      some (.ret [{ type := .PUSHI, operand := 5, soperand := [] },
                  { type := .NOP, operand := 0, soperand := [] },
                  { type := .PUSHS, operand := 0, soperand := ['x'] },
                  { type := .INTRINSIC, operand := 1, soperand := [] }]) :=
  (grammar_instructions_clean
    [.full ⟨[], .pushi ['5'], [' '], []⟩, .bare [' '],
     .full ⟨['\n'], .pushs [.plain 'x'], [' '], []⟩, .full ⟨[], .puts, [], []⟩]
    [] [] 30
    (by
      intro i hi
      simp only [List.mem_cons, List.mem_singleton, List.not_mem_nil, or_false] at hi
      rcases hi with rfl | rfl | rfl | rfl <;>
        simp [Item.Valid, Statement.Valid, Stmt.Valid, StrItem.Valid, Blank, isdigit,
          decimalValue])
    (by simp [Blank]) (by decide)).1


theorem lex_keyword (kw : Option Keyword) {rest : List Char}
    (hrest : StartsOutside isalpha rest) (fuel : Nat) (prog : List OP) :
    lexLoop (fuel + kw.toList.length) (keywordText kw ++ rest) ({}, prog) =
      lexLoop fuel rest (keywordOp kw, prog) := by
  cases kw with
  | none => rfl
  | some k =>
    cases k
    · show lexLoop (fuel + 1) _ _ = _
      rw [keywordText, lex_ident (by decide) (by decide) hrest, applyIdent_pushi]
      rfl
    · show lexLoop (fuel + 1) _ _ = _
      rw [keywordText, lex_ident (by decide) (by decide) hrest, applyIdent_pushs]
      rfl
    · show lexLoop (fuel + 1) _ _ = _
      rw [keywordText, lex_ident (by decide) (by decide) hrest, applyIdent_puts]
      rfl
    · show lexLoop (fuel + 1) _ _ = _
      rw [keywordText, lex_ident (by decide) (by decide) hrest, applyIdent_exit]
      rfl

theorem keyword_steps_le (kw : Option Keyword) :
    kw.toList.length ≤ (keywordText kw).length := by
  cases kw with
  | none => exact Nat.le_refl _
  | some k => cases k <;> decide

theorem lex_literals (lits : List (List Char × List StrItem))
    (hvalid : ∀ p ∈ lits, Blank p.1 ∧ ∀ item ∈ p.2, item.Valid) (cur : OP) :
    ∃ k sop, k ≤ (literalsText lits).length ∧
      ∀ (fuel : Nat) (rest : List Char) (prog : List OP),
        lexLoop (fuel + k) (literalsText lits ++ rest) (cur, prog) =
          lexLoop fuel rest ({ cur with soperand := sop }, prog) := by
  induction lits generalizing cur with
  | nil => exact ⟨0, cur.soperand, by simp, fun fuel rest prog => rfl⟩
  | cons p more ih =>
    obtain ⟨ws, body⟩ := p
    obtain ⟨hws, hbody⟩ := hvalid (ws, body) (by simp)
    obtain ⟨k, sop, hk, h⟩ := ih (fun q hq => hvalid q (by simp [hq]))
      { cur with soperand := bodyDecoded body }
    refine ⟨k + 1 + ws.length, sop, ?_, ?_⟩
    · simp only [literalsText, List.length_append, List.length_cons]
      omega
    · intro fuel rest prog
      have t : literalsText ((ws, body) :: more) ++ rest =
          ws ++ ('"' :: (bodyText body ++ '"' :: (literalsText more ++ rest))) := by
        simp [literalsText]
      rw [← Nat.add_assoc, ← Nat.add_assoc, t, lex_blank hws, lex_string hbody, h]

theorem literalsText_startsOutside (lits : List (List Char × List StrItem))
    (hvalid : ∀ p ∈ lits, Blank p.1 ∧ ∀ item ∈ p.2, item.Valid) {t : List Char}
    (ht : StartsOutside isalpha t) : StartsOutside isalpha (literalsText lits ++ t) := by
  cases lits with
  | nil => exact ht
  | cons p more =>
    obtain ⟨ws, body⟩ := p
    obtain ⟨hws, _⟩ := hvalid (ws, body) (by simp)
    simp only [literalsText, List.append_assoc, List.cons_append]
    exact blank_startsOutside_alpha hws (startsOutside_cons _ (by decide))

theorem lex_stringStatement (s : StringStatement) (hs : s.Valid) :
    ∃ k, k ≤ s.text.length ∧ ∀ (fuel : Nat) (rest : List Char) (prog : List OP),
      lexLoop (fuel + k) (s.text ++ rest) ({}, prog) =
        lexLoop fuel rest ({}, prog ++ [s.op]) := by
  obtain ⟨lead, kw, earlier, gap, last, trail⟩ := s
  obtain ⟨hlead, hearlier, hgap, hlast, htrail⟩ := hs
  simp only at hlead hearlier hgap hlast htrail
  have hstart : ∀ rest : List Char, StartsOutside isalpha
      (literalsText earlier ++ (gap ++ ('"' :: (bodyText last ++ '"' ::
        (trail ++ ';' :: rest))))) := fun rest =>
    literalsText_startsOutside earlier hearlier
      (blank_startsOutside_alpha hgap (startsOutside_cons _ (by decide)))
  obtain ⟨k2, sop, hk2, h2⟩ := lex_literals earlier hearlier (keywordOp kw)
  have hk1 := keyword_steps_le kw
  refine ⟨1 + trail.length + 1 + gap.length + k2 + kw.toList.length + lead.length, ?_, ?_⟩
  · simp only [StringStatement.text, List.length_append, List.length_cons,
      List.length_singleton]
    omega
  · intro fuel rest prog
    have t : StringStatement.text ⟨lead, kw, earlier, gap, last, trail⟩ ++ rest =
        lead ++ (keywordText kw ++ (literalsText earlier ++ (gap ++
          ('"' :: (bodyText last ++ '"' :: (trail ++ ';' :: rest)))))) := by
      simp [StringStatement.text]
    have e : fuel + (1 + trail.length + 1 + gap.length + k2 + kw.toList.length +
        lead.length) =
        ((((((fuel + 1) + trail.length) + 1) + gap.length) + k2) + kw.toList.length) +
          lead.length := by omega
    rw [e, t, lex_blank hlead, lex_keyword kw (hstart rest), h2, lex_blank hgap,
      lex_string hlast, lex_blank htrail, lex_terminator]
    rfl

/-- C13: a statement made of a keyword `pushi`, `pushs`, `puts` or `exit`, or of no keyword,
followed by one or more terminated string literals and `;` appends the instruction whose
kind (and operand) is the one set by the keyword, `NOP` without a keyword, and whose string
operand is the decoded text of the last literal; this holds wherever the statement stands
among well-formed statements, given fuel beyond the length of the text. -/
theorem string_operand_bound_by_order (before after : List Statement) (s : StringStatement)
    (tail : List Char) (program : List OP) (fuel : Nat) (hbefore : ∀ t ∈ before, t.Valid)
    (hafter : ∀ t ∈ after, t.Valid) (hs : s.Valid) (htail : Blank tail)
    (hfuel : (render before ++ (s.text ++ (render after ++ tail))).length < fuel) :
    parseProgram (render before ++ (s.text ++ (render after ++ tail))) program fuel =
      some (.ret (program ++ (before.map fun t => t.stmt.op) ++
        s.op :: after.map fun t => t.stmt.op)) := by
  obtain ⟨k1, hk1, h1⟩ := lex_render before hbefore
  obtain ⟨k2, hk2, h2⟩ := lex_stringStatement s hs
  obtain ⟨k3, hk3, h3⟩ := lex_render after hafter
  have hrun : lexLoop (0 + 1 + tail.length + k3 + k2 + k1)
      (render before ++ (s.text ++ (render after ++ tail))) ({}, program) =
      some (.ret ({}, program ++ (before.map fun t => t.stmt.op) ++
        s.op :: after.map fun t => t.stmt.op)) := by
    have h4 := lex_blank htail (0 + 1) []
      ({}, program ++ (before.map fun t => t.stmt.op) ++ [s.op] ++ after.map fun t => t.stmt.op)
    rw [List.append_nil] at h4
    rw [h1, h2, h3, h4, lexLoop_nil]
    simp
  rw [parseProgram_eq_lexLoop,
    lexLoop_le hrun (by simp only [List.length_append] at hfuel; omega)]
  rfl

theorem string_operand_bound_by_order_witness :
    parseProgram "pushi 5;exit \"a\" \"b\\n\";puts;".toList [] 40 =
      some (.ret [{ type := .PUSHI, operand := 5, soperand := [] },
                  { type := .INTRINSIC, operand := 0, soperand := ['b', '\n'] },
                  { type := .INTRINSIC, operand := 1, soperand := [] }]) ∧
    parseProgram "\"z\";".toList [] 40 =
      some (.ret [{ type := .NOP, operand := 0, soperand := ['z'] }]) ∧
    parseProgram "pushi\"q\";".toList [] 40 =
      some (.ret [{ type := .PUSHI, operand := 0, soperand := ['q'] }]) :=
  ⟨string_operand_bound_by_order [⟨[], .pushi ['5'], [' '], []⟩] [⟨[], .puts, [], []⟩]
      ⟨[], some .exit, [([' '], [.plain 'a'])], [' '], [.plain 'b', .escape 'n'], []⟩
      [] [] 40
      (by
        intro t ht
        simp only [List.mem_singleton] at ht
        subst ht
        simp [Statement.Valid, Stmt.Valid, Blank, isdigit, decimalValue])
      (by
        intro t ht
        simp only [List.mem_singleton] at ht
        subst ht
        simp [Statement.Valid, Stmt.Valid, Blank])
      (by simp [StringStatement.Valid, StrItem.Valid, Blank])
      (by simp [Blank]) (by decide),
   string_operand_bound_by_order [] [] ⟨[], none, [], [], [.plain 'z'], []⟩ [] [] 40
      (by simp) (by simp) (by simp [StringStatement.Valid, StrItem.Valid, Blank])
      (by simp [Blank]) (by decide),
   string_operand_bound_by_order [] [] ⟨[], some .pushi, [], [], [.plain 'q'], []⟩ [] [] 40
      (by simp) (by simp) (by simp [StringStatement.Valid, StrItem.Valid, Blank])
      (by simp [Blank]) (by decide)⟩

/-! ### The scan of a prefix of the text -/

/-- The scan of `a ++ t` passes through `a` in a way that does not depend on the text `t`
that follows at a token boundary. -/
theorem prefix_summary (a : List Char) (x : OP × List OP) :
    ∃ s, ∀ t, (modeAfter .code a).Ends t → ∀ r,
      (LexYields (a ++ t) x r ↔ AfterPrefix s t r) := by
  generalize hn : a.length = n
  induction n using Nat.strong_induction_on generalizing a x with
  | _ n ih =>
    cases a with
    | nil => exact ⟨some (.ret x), fun t _ r => Iff.rfl⟩
    | cons c a1 =>
      rcases first_token c a1 x with hstuck | ⟨o, rem, hlen, hstep⟩
      · refine ⟨none, fun t _ r => ?_⟩
        constructor
        · intro h
          exact absurd h (lexYields_stuck (by simp) (hstuck _) r)
        · intro h
          exact absurd h id
      · cases o with
        | ret y =>
          obtain ⟨s, hs⟩ := ih rem.length (by omega) rem y rfl
          refine ⟨s, fun t ht r => ?_⟩
          obtain ⟨hends, hfirst⟩ := hstep t ht
          rw [List.cons_append, lexYields_first (by simp) hfirst]
          exact hs t hends r
        | throws e =>
          refine ⟨some (.throws e), fun t ht r => ?_⟩
          obtain ⟨_, hfirst⟩ := hstep t ht
          rw [List.cons_append, lexYields_first (by simp) hfirst]
          rfl
        | undefined =>
          refine ⟨some .undefined, fun t ht r => ?_⟩
          obtain ⟨_, hfirst⟩ := hstep t ht
          rw [List.cons_append, lexYields_first (by simp) hfirst]
          rfl

theorem lexYields_nil (x : OP × List OP) (r : Outcome (OP × List OP)) :
    LexYields [] x r ↔ r = .ret x := by
  constructor
  · rintro ⟨fuel, h⟩
    cases fuel with
    | zero => simp [lexLoop] at h
    | succ n =>
      rw [lexLoop_nil] at h
      simp only [Option.some.injEq] at h
      exact h.symm
  · intro h
    exact ⟨1, by rw [lexLoop_nil, h]⟩

/-- When the scan of `a` alone returns in the state `y`, the scan of `a ++ t` is the scan
of `t` from `y`, for every text `t` that follows at a token boundary. -/
theorem lexYields_append {a t : List Char} {x y : OP × List OP}
    (ha : LexYields a x (.ret y)) (ht : (modeAfter .code a).Ends t)
    (hnil : (modeAfter .code a).Ends []) (r : Outcome (OP × List OP)) :
    LexYields (a ++ t) x r ↔ LexYields t y r := by
  obtain ⟨s, hs⟩ := prefix_summary a x
  have h0 := (hs [] hnil (.ret y)).mp (by simpa using ha)
  cases s with
  | none => exact absurd h0 id
  | some o =>
    cases o with
    | ret y1 =>
      have hy : y1 = y := by
        have := (lexYields_nil y1 (.ret y)).mp h0
        simp only [Outcome.ret.injEq] at this
        exact this.symm
      subst hy
      exact hs t ht r
    | throws e => cases h0
    | undefined => cases h0

theorem ends_nil_of_outside {m : Mode} (hm : m.inLiteral = false) : m.Ends [] := by
  cases m
  case code => exact trivial
  case ident => exact startsOutside_nil _
  case number => exact startsOutside_nil _
  case string => simp [Mode.inLiteral] at hm
  case escape => simp [Mode.inLiteral] at hm

theorem ends_semicolon_of_outside {m : Mode} (hm : m.inLiteral = false) (t : List Char) :
    m.Ends (';' :: t) := by
  cases m
  case code => exact trivial
  case ident => exact startsOutside_cons _ (by decide)
  case number => exact startsOutside_cons _ (by decide)
  case string => simp [Mode.inLiteral] at hm
  case escape => simp [Mode.inLiteral] at hm

theorem modeAfter_terminator {a0 : List Char} (hm : (modeAfter .code a0).inLiteral = false) :
    modeAfter .code (a0 ++ [';']) = .code := by
  rw [modeAfter_append]
  generalize modeAfter .code a0 = m at hm
  cases m
  case string => simp [Mode.inLiteral] at hm
  case escape => simp [Mode.inLiteral] at hm
  all_goals decide

/-- A scan that returns on a text that ends with a terminator leaves the accumulator
reset. -/
theorem lexYields_terminator_reset {a0 : List Char} {x y : OP × List OP}
    (hm : (modeAfter .code a0).inLiteral = false)
    (h : LexYields (a0 ++ [';']) x (.ret y)) : y.1 = {} := by
  obtain ⟨s, hs⟩ := prefix_summary a0 x
  have h0 := (hs [';'] (ends_semicolon_of_outside hm []) (.ret y)).mp h
  cases s with
  | none => exact absurd h0 id
  | some o =>
    cases o with
    | ret y0 =>
      have hstep : lexStep [';'] y0 =
          (Outcome.ret (({} : OP), y0.2 ++ [y0.1])).bind fun z => .ret (z, []) := by
        simp [lexStep]
      have h1 : LexYields [';'] y0 (.ret y) := h0
      rw [lexYields_first (by simp) hstep] at h1
      have h2 := (lexYields_nil _ _).mp h1
      simp only [Outcome.ret.injEq] at h2
      rw [h2]
    | throws e => cases h0
    | undefined => cases h0


/-! ### The program is only appended to -/

theorem lexStep_prepend (p : List OP) (suf : List Char) (cur : OP) (q : List OP) :
    lexStep suf (cur, p ++ q) =
      (lexStep suf (cur, q)).bind fun y => .ret ((y.1.1, p ++ y.1.2), y.2) := by
  cases suf with
  | nil => rfl
  | cons c rest =>
    simp only [lexStep]
    by_cases h1 : c = ';'
    · simp [h1]
    · simp only [h1, if_false]
      by_cases h2 : c = '\n' ∨ c = ' '
      · simp [h2]
      · simp only [h2, if_false]
        by_cases h3 : c = '"'
        · simp only [h3, if_true]
          cases lexStr rest [] with
          | none => rfl
          | some a => rfl
        · simp only [h3, if_false]
          by_cases h4 : isalpha c = true
          · simp [h4]
          · simp only [h4, if_false]
            by_cases h5 : isalnum c = true
            · simp only [h5, if_true]
              cases stoi (List.takeWhile isalnum (c :: rest)) with
              | ret n => rfl
              | throws e => rfl
              | undefined => rfl
            · simp [h5]

theorem lexLoop_prepend (p : List OP) (fuel : Nat) (suf : List Char) (cur : OP)
    (q : List OP) :
    lexLoop fuel suf (cur, p ++ q) = (lexLoop fuel suf (cur, q)).map (prependProgram p) := by
  induction fuel generalizing suf cur q with
  | zero => rfl
  | succ n ih =>
    rw [lexLoop, lexLoop]
    by_cases hnil : suf = []
    · simp [hnil, prependProgram]
    · simp only [hnil, if_false, lexStep_prepend]
      cases lexStep suf (cur, q) with
      | ret a =>
        obtain ⟨⟨cur1, q1⟩, r⟩ := a
        simp only [bind_ret]
        exact ih r cur1 q1
      | throws e => rfl
      | undefined => rfl

theorem lexYields_prepend {suf : List Char} {cur : OP} {q : List OP}
    {r : Outcome (OP × List OP)} (p : List OP) (h : LexYields suf (cur, q) r) :
    LexYields suf (cur, p ++ q) (prependProgram p r) := by
  obtain ⟨fuel, hf⟩ := h
  exact ⟨fuel, by rw [lexLoop_prepend, hf]; rfl⟩

theorem lexYields_of_prepend {suf : List Char} {cur : OP} {p q : List OP}
    {r : Outcome (OP × List OP)} (h : LexYields suf (cur, p ++ q) r) :
    ∃ r0, LexYields suf (cur, q) r0 ∧ r = prependProgram p r0 := by
  obtain ⟨fuel, hf⟩ := h
  rw [lexLoop_prepend] at hf
  cases hl : lexLoop fuel suf (cur, q) with
  | none => simp [hl] at hf
  | some r0 =>
    simp only [hl, Option.map_some', Option.some.injEq] at hf
    exact ⟨r0, ⟨fuel, hl⟩, hf.symm⟩

/-- What `parseProgram` appends does not depend on what the program already holds. -/
theorem yields_append_only {source : List Char} {p res : List OP}
    (h : Yields source p (.ret res)) :
    ∃ added, res = p ++ added ∧ ∀ q, Yields source q (.ret (q ++ added)) := by
  obtain ⟨r1, hlex, hfin⟩ := (yields_iff_lexYields source p (.ret res)).mp h
  have hlex1 : LexYields source ({}, p ++ []) r1 := by simpa using hlex
  obtain ⟨r0, hr0, hr1⟩ := lexYields_of_prepend hlex1
  cases r0 with
  | ret y =>
    refine ⟨y.2, ?_, ?_⟩
    · rw [hr1] at hfin
      simp only [prependProgram, finalProgram, bind_ret, Outcome.ret.injEq] at hfin
      exact hfin.symm
    · intro q
      have := lexYields_prepend q hr0
      rw [List.append_nil] at this
      exact (yields_iff_lexYields source q _).mpr ⟨_, this, rfl⟩
  | throws e =>
    rw [hr1] at hfin
    cases hfin
  | undefined =>
    rw [hr1] at hfin
    cases hfin

theorem applyIdent_unknown (cur : OP) {run : List Char}
    (hkw : run ≠ "pushi".toList ∧ run ≠ "pushs".toList ∧ run ≠ "puts".toList ∧
      run ≠ "exit".toList) : applyIdent cur run = cur := by
  obtain ⟨h1, h2, h3, h4⟩ := hkw
  simp only [applyIdent, h1, h2, h3, h4, if_false]

/-- C15: an identifier that is none of `pushi`, `pushs`, `puts`, `exit` (a maximal run of
letters, so also a longer run such as `pushix`) is ignored: the iteration at it leaves the
accumulator and the program unchanged and moves the cursor just past the run; and when the
run stands as a token of its own (not inside a string literal, not after a letter or a
digit), deleting it from the source text does not change what `parseProgram` does, in
particular not the instruction sequence it returns. -/
theorem unknown_identifier_ignored (a run b : List Char) (cur : OP) (prog program : List OP)
    (r : Outcome (List OP)) (hne : run ≠ []) (hrun : ∀ c ∈ run, isalpha c = true)
    (hkw : run ≠ "pushi".toList ∧ run ≠ "pushs".toList ∧ run ≠ "puts".toList ∧
      run ≠ "exit".toList)
    (hb : StartsOutside isalpha b) :
    step (a ++ (run ++ b)) { current := cur, cursor := a.length, program := prog } =
      .ret { current := cur, cursor := a.length + run.length, program := prog } ∧
    (modeAfter .code a = .code →
      (Yields (a ++ (run ++ b)) program r ↔ Yields (a ++ b) program r)) := by
  constructor
  · rw [step_ident hne hrun hb, applyIdent_unknown cur hkw]
  · intro hmode
    have hends : ∀ t, (modeAfter .code a).Ends t := by
      intro t
      rw [hmode]
      exact trivial
    have hskip : ∀ (y : OP × List OP) (r1 : Outcome (OP × List OP)),
        LexYields (run ++ b) y r1 ↔ LexYields b y r1 := by
      intro y r1
      have hstep : lexStep (run ++ b) y = (Outcome.ret y).bind fun z => .ret (z, b) := by
        obtain ⟨ycur, yprog⟩ := y
        rw [lexStep_ident hne hrun hb, applyIdent_unknown ycur hkw]
        rfl
      have hne1 : run ++ b ≠ [] := by
        intro h
        exact hne (List.append_eq_nil.mp h).1
      rw [lexYields_first hne1 hstep]
      rfl
    have hlex : ∀ r1, LexYields (a ++ (run ++ b)) ({}, program) r1 ↔
        LexYields (a ++ b) ({}, program) r1 := by
      intro r1
      obtain ⟨s, hs⟩ := prefix_summary a ({}, program)
      rw [hs _ (hends _) r1, hs _ (hends _) r1]
      cases s with
      | none => rfl
      | some o =>
        cases o with
        | ret y => exact hskip y r1
        | throws e => rfl
        | undefined => rfl
    rw [yields_iff_lexYields, yields_iff_lexYields]
    constructor
    · rintro ⟨r1, h1, h2⟩
      exact ⟨r1, (hlex r1).mp h1, h2⟩
    · rintro ⟨r1, h1, h2⟩
      exact ⟨r1, (hlex r1).mpr h1, h2⟩

theorem unknown_identifier_ignored_witness :
    step ("pushi 4;".toList ++ ("putsexit".toList ++ " exit;".toList))
        { current := {}, cursor := 8, program := [opPushi 4] } =
      .ret { current := {}, cursor := 8 + 8, program := [opPushi 4] } ∧
    Yields ("pushi 4;".toList ++ " exit;".toList) [] (.ret [opPushi 4, INTRINSIC_EXIT]) :=
  ⟨(unknown_identifier_ignored "pushi 4;".toList "putsexit".toList " exit;".toList {}
      [opPushi 4] [] (.ret [opPushi 4, INTRINSIC_EXIT]) (by decide) (by decide)
      (by decide) (startsOutside_cons _ (by decide))).1,
   ((unknown_identifier_ignored "pushi 4;".toList "putsexit".toList " exit;".toList {}
      [opPushi 4] [] (.ret [opPushi 4, INTRINSIC_EXIT]) (by decide) (by decide)
      (by decide) (startsOutside_cons _ (by decide))).2 (by decide)).mp ⟨30, by decide⟩⟩


/-- C16: when `a` ends with a terminator (a `;` outside string literals) and `parseProgram`
returns on `a` with the instructions `A`, then on `a ++ b` it does exactly what it does on
`b` with `A` already appended: it returns if and only if it returns on `b`, and then it has
appended `A` followed by the instructions of `b`.  And `parseProgram` only appends: what it
returns is the program it was given followed by instructions that do not depend on that
program. -/
theorem statements_parsed_independently (a0 b : List Char) (program A : List OP)
    (hterm : (modeAfter .code a0).inLiteral = false)
    (ha : Yields (a0 ++ [';']) [] (.ret A)) :
    (∀ r, Yields ((a0 ++ [';']) ++ b) program r ↔ Yields b (program ++ A) r) ∧
    (∀ B, Yields b [] (.ret B) →
      Yields ((a0 ++ [';']) ++ b) program (.ret (program ++ A ++ B))) ∧
    (∀ res, Yields ((a0 ++ [';']) ++ b) program (.ret res) →
      ∃ B, Yields b [] (.ret B) ∧ res = program ++ A ++ B) ∧
    (∀ (source : List Char) (p res : List OP), Yields source p (.ret res) →
      ∃ added, res = p ++ added ∧ ∀ q, Yields source q (.ret (q ++ added))) := by
  have hmode : modeAfter .code (a0 ++ [';']) = .code := modeAfter_terminator hterm
  have hends : ∀ t, (modeAfter .code (a0 ++ [';'])).Ends t := by
    intro t
    rw [hmode]
    exact trivial
  obtain ⟨r1, hlex, hfin⟩ := (yields_iff_lexYields _ [] (.ret A)).mp ha
  have hA : LexYields (a0 ++ [';']) ({}, program) (.ret ({}, program ++ A)) := by
    cases r1 with
    | ret y =>
      have hreset := lexYields_terminator_reset hterm hlex
      simp only [finalProgram, bind_ret, Outcome.ret.injEq] at hfin
      have hy : y = ({}, A) := by
        obtain ⟨ycur, yprog⟩ := y
        simp only at hreset hfin
        rw [hreset, hfin]
      rw [hy] at hlex
      have := lexYields_prepend program hlex
      simpa [prependProgram] using this
    | throws e => cases hfin
    | undefined => cases hfin
  have hiff : ∀ r, Yields ((a0 ++ [';']) ++ b) program r ↔ Yields b (program ++ A) r := by
    intro r
    rw [yields_iff_lexYields, yields_iff_lexYields]
    constructor
    · rintro ⟨r2, h1, h2⟩
      exact ⟨r2, (lexYields_append hA (hends b) (hends []) r2).mp h1, h2⟩
    · rintro ⟨r2, h1, h2⟩
      exact ⟨r2, (lexYields_append hA (hends b) (hends []) r2).mpr h1, h2⟩
  refine ⟨hiff, ?_, ?_, ?_⟩
  · intro B hB
    obtain ⟨added, hadd, hall⟩ := yields_append_only hB
    have hB1 : B = added := by simpa using hadd
    rw [hiff, hB1]
    exact hall (program ++ A)
  · intro res hres
    obtain ⟨added, hadd, hall⟩ := yields_append_only ((hiff _).mp hres)
    exact ⟨added, by simpa using hall [], hadd⟩
  · intro source p res h
    exact yields_append_only h

theorem statements_parsed_independently_witness :
    Yields (("pushi 4".toList ++ [';']) ++ "x\"y;\" puts;".toList) [INTRINSIC_EXIT]
      (.ret ([INTRINSIC_EXIT] ++ [opPushi 4] ++
        [{ type := .INTRINSIC, operand := 1, soperand := [] }])) :=
  (statements_parsed_independently "pushi 4".toList "x\"y;\" puts;".toList [INTRINSIC_EXIT]
    [opPushi 4] (by decide) ⟨10, by decide⟩).2.1
    [{ type := .INTRINSIC, operand := 1, soperand := [] }] ⟨20, by decide⟩

end Stacked
